import Mathlib

/-!
# Levy-stable densities: a shallow embedding of package `levy`

The Go sources `levy.go`, `zolatarev.go`, `bergstrom.go` and `belov.go` are
embedded as Lean functions over an arbitrary linearly ordered field `F`
standing for `float64` in exact arithmetic.  The functions of Go's `math`
package and the numerical collaborators of the packages `quad` and `solve`
are not part of the repository: they are taken as parameters (`GoMath`,
`Integrator`, `Bisection`).  The structure `realMath` interprets `GoMath`
by the real functions of Mathlib.
-/

namespace Levy

/-! ## External collaborators -/

/-- Functions and constants of Go's `math` package used by the sources.
`math.Abs` is the absolute value of the ordered field and is not listed. -/
structure GoMath (F : Type) where
  Pi : F
  Exp : F → F
  Log : F → F
  Sqrt : F → F
  Tan : F → F
  Atan : F → F
  Sin : F → F
  Cos : F → F
  Pow : F → F → F
  Gamma : F → F
  IsNaN : F → Bool
  IsInf : F → Int → Bool

/-- Values of Go's `error` interface, one constructor for each `fmt.Errorf`
call of the package and one for the errors of the external packages. -/
inductive Error (F : Type) where
  /-- `fmt.Errorf("alpha (%g) outside allowed range [0,2)", alpha)` in `levy.go`. -/
  | alphaRange (alpha : F)
  /-- `fmt.Errorf("beta (%g) outside allowed range [-1,1]", beta)` in `levy.go`. -/
  | betaRange (beta : F)
  /-- `fmt.Errorf("Iteration limit in tail approximation exceeded (%d)", limit)`. -/
  | iterationLimit (limit : Int)
  /-- `fmt.Errorf("%s; %s ", err, e)` in `PdfZ.integrate`. -/
  | joined (err e : Error F)
  /-- An error of the packages `quad` or `solve`, known by its message. -/
  | external (msg : String)

/-- The text `Error()` of an error; `fmtG` renders a float with the verb `%g`. -/
def Error.message {F : Type} (fmtG : F → String) : Error F → String
  | .alphaRange alpha => "alpha (" ++ fmtG alpha ++ ") outside allowed range [0,2)"
  | .betaRange beta => "beta (" ++ fmtG beta ++ ") outside allowed range [-1,1]"
  | .iterationLimit limit =>
      "Iteration limit in tail approximation exceeded (" ++ toString limit ++ ")"
  | .joined err e => err.message fmtG ++ "; " ++ e.message fmtG ++ " "
  | .external msg => msg

/-- The two range errors created by `Value`. -/
def Error.IsRange {F : Type} : Error F → Prop
  | .alphaRange _ => True
  | .betaRange _ => True
  | _ => False

/-- The interface `quad.Integrator`: `Integrate(f, a, b, epsabs, epsrel, limit)`
returns the integral, an error estimate and an error. -/
abbrev Integrator (F : Type) := (F → F) → F → F → F → F → Int → F × F × Option (Error F)

/-- The function `solve.Bisection(f, a, b, eps, limit)`: it returns the root, the
value of `f` there and an error. -/
abbrev Bisection (F : Type) := (F → F) → F → F → F → Int → F × F × Option (Error F)

/-- Fixed-order rules of package `quad` used by `PdfBelov`:
`NewGaussLaguerre().Integrate(f, a)` and `NewGaussLegendre1024().Integrate(f, a, b)`. -/
structure FixedRules (F : Type) where
  GaussLaguerre : (F → F) → F → F
  GaussLegendre1024 : (F → F) → F → F → F

/-! ## levy.go -/

/-- Interface `Pdf`: the scaled density at `(x, alpha, beta)` with an error. -/
structure Pdf (F : Type) where
  ScaledValue : F → F → F → F × Option (Error F)

variable {F : Type} [LinearOrderedField F]

/-- `Value` of `levy.go`: range checks, rescaling, call of the generator. -/
def Value (pdf : Pdf F) (x alpha beta mu sigma : F) : F × Option (Error F) :=
  if alpha ≤ 0 ∨ alpha > 2 then
    (0, some (Error.alphaRange alpha))
  else if beta < -1 ∨ beta > 1 then
    (0, some (Error.betaRange beta))
  else
    let x := (x - mu) / sigma
    let r := pdf.ScaledValue x alpha beta
    let val := r.1
    let err := r.2
    let val := val / sigma
    (val, err)

/-! ## zolatarev.go -/

/-- The struct `PdfZ`. -/
structure PdfZ (F : Type) where
  eps_quad : F
  eps_bisect : F
  alpha_tol : F
  beta_tol : F
  limit_quad : Int
  limit_bisect : Int
  quad : Integrator F

/-- `NewPdfZ`; `q` stands for `quad.NewCustomQAG(quad.NewGaussKronrod61())`. -/
def NewPdfZ (q : Integrator F) : PdfZ F :=
  { eps_quad := 1e-14, eps_bisect := 1e-10, alpha_tol := 1e-6, beta_tol := 1e-6,
    limit_quad := 45, limit_bisect := 50, quad := q }

/-- `NewCustomPdfZ`. -/
def NewCustomPdfZ (q : Integrator F) (eps_quad eps_bisect alpha_tol beta_tol : F)
    (limit_quad limit_bisect : Int) : PdfZ F :=
  { eps_quad := eps_quad, eps_bisect := eps_bisect, alpha_tol := alpha_tol,
    beta_tol := beta_tol, limit_quad := limit_quad, limit_bisect := limit_bisect, quad := q }

/-- `closeTo`: strict comparison of the distance with the size of the tolerance. -/
def closeTo (val1 val2 tol : F) : Bool :=
  decide (|val1 - val2| < |tol|)

/-- `componentNeq1`. -/
def componentNeq1 (L : GoMath F) (theta alpha _beta eps : F) : F :=
  L.Pow (L.Cos (alpha * eps)) (1.0 / (alpha - 1.0)) *
    L.Pow (L.Cos theta / L.Sin (alpha * (theta + eps))) (alpha / (alpha - 1.0)) *
    L.Cos (alpha * eps + (alpha - 1.0) * theta) / L.Cos theta

/-- `integrandNeq1`: the integrand in the log domain, 0 when it degenerates. -/
def integrandNeq1 (L : GoMath F) (theta alpha beta eps gamma : F) : F :=
  let val := componentNeq1 L theta alpha beta eps
  if L.IsNaN gamma || L.IsInf val 1 then
    0
  else
    L.Exp (L.Log val - val * gamma)

/-- `componentEq1`. -/
def componentEq1 (L : GoMath F) (theta beta : F) : F :=
  (1.0 + 2.0 * beta * theta / L.Pi) *
    L.Exp ((0.5 * L.Pi / beta + theta) * L.Tan theta) /
    L.Cos theta

/-- `integrandEq1`. -/
def integrandEq1 (L : GoMath F) (theta beta gamma : F) : F :=
  let val := componentEq1 L theta beta
  if L.IsNaN gamma || L.IsInf val 1 then
    0
  else
    L.Exp (L.Log val - val * gamma)

/-- `PdfZ.integrate`: the peak of the integrand is located by bisection of `f`,
then `g` is integrated below and above the peak; errors are accumulated. -/
def PdfZ.integrate (bisect : Bisection F) (pdf : PdfZ F) (f g : F → F) (a b : F) :
    F × Option (Error F) :=
  let r := bisect f a b pdf.eps_bisect pdf.limit_bisect
  let max := r.1
  let err := r.2.2
  let r1 := pdf.quad g a max pdf.eps_quad 0.0 pdf.limit_quad
  let I_1 := r1.1
  let e := r1.2.2
  let err :=
    match e with
    | some e =>
      match err with
      | none => some e
      | some err => some (Error.joined err e)
    | none => err
  let r2 := pdf.quad g max b pdf.eps_quad 0.0 pdf.limit_quad
  let I_2 := r2.1
  let e := r2.2.2
  let err :=
    match e with
    | some e =>
      match err with
      | none => some e
      | some err => some (Error.joined err e)
    | none => err
  (I_1 + I_2, err)

/-- `PdfZ.ScaledValue`: the four regimes of the Zolatarev representation.  The
call of itself in the branch `x < zeta` is justified by the measure below: the
reflected point lies at or above its own `zeta`. -/
def PdfZ.ScaledValue (L : GoMath F) (bisect : Bisection F) (pdf : PdfZ F)
    (x alpha beta : F) : F × Option (Error F) :=
  if closeTo alpha 2 pdf.alpha_tol then
    (L.Exp (-0.25 * x * x) / L.Sqrt (4.0 * L.Pi), none)
  else if closeTo alpha 1 pdf.alpha_tol && !closeTo beta 0 pdf.beta_tol then
    let gamma := L.Exp (-0.5 * L.Pi * x / beta)
    let a := -0.5 * L.Pi
    let b := 0.5 * L.Pi
    let r := pdf.integrate bisect
      (fun theta => componentEq1 L theta beta * gamma - 1.0)
      (fun theta => integrandEq1 L theta beta gamma)
      a b
    let p := r.1
    let err := r.2
    let p := p * (0.5 * gamma / |beta|)
    (p, err)
  else if closeTo alpha 1 pdf.alpha_tol && closeTo beta 0 pdf.beta_tol then
    (1.0 / ((1.0 + x * x) * L.Pi), none)
  else if !closeTo alpha 1 pdf.alpha_tol then
    let zeta := -beta * L.Tan (0.5 * L.Pi * alpha)
    if x = zeta then
      let eps := L.Atan (-zeta) / alpha
      let p := L.Gamma (1 + 1 / alpha) * L.Cos eps /
        (L.Pi * L.Pow (1 + zeta * zeta) (0.5 / alpha))
      (p, none)
    else if x > zeta then
      let eps := L.Atan (-zeta) / alpha
      let gamma := L.Pow (x - zeta) (alpha / (alpha - 1.0))
      let a := -eps
      let b := 0.5 * L.Pi
      let r := pdf.integrate bisect
        (fun theta => componentNeq1 L theta alpha beta eps * gamma - 1.0)
        (fun theta => integrandNeq1 L theta alpha beta eps gamma)
        a b
      let p := r.1
      let err := r.2
      let p := p * (alpha * L.Pow (x - zeta) (1.0 / (alpha - 1.0)) / (L.Pi * |alpha - 1|))
      (p, err)
    else if _h : x < zeta then
      PdfZ.ScaledValue L bisect pdf (-x) alpha (-beta)
    else
      (0, none)
  else
    (0, none)
termination_by (if x < -beta * L.Tan (0.5 * L.Pi * alpha) then 1 else 0 : Nat)
decreasing_by
  have h1 : ¬ (-x < - -beta * L.Tan (0.5 * L.Pi * alpha)) := by
    intro h2
    have h3 : x < -beta * L.Tan (0.5 * L.Pi * alpha) := _h
    have h4 : - -beta * L.Tan (0.5 * L.Pi * alpha) = -(-beta * L.Tan (0.5 * L.Pi * alpha)) := by
      ring
    rw [h4] at h2
    linarith
  have h5 : x < -beta * L.Tan (0.5 * L.Pi * alpha) := _h
  simp only [h1, h5, if_true, if_false]
  exact Nat.zero_lt_one

/-- The generator `*PdfZ` seen through the interface `Pdf`. -/
def PdfZ.toPdf (L : GoMath F) (bisect : Bisection F) (pdf : PdfZ F) : Pdf F :=
  { ScaledValue := PdfZ.ScaledValue L bisect pdf }

/-! ## bergstrom.go -/

/-- The struct `PdfBergstrom`. -/
structure PdfBergstrom (F : Type) where
  eps : F
  limit : Int

/-- `NewPdfBergstrom`. -/
def NewPdfBergstrom : PdfBergstrom F :=
  { eps := 1e-12, limit := 30 }

/-- The increment `delta` computed by the `n`-th pass of the loop of
`PdfBergstrom.ScaledValue`. -/
def PdfBergstrom.delta (L : GoMath F) (x alpha zeta : F) (n : Int) : F :=
  let a : F := 1.0
  let a : F := if n % 2 = 0 then -1.0 else a
  let a := a * (L.Gamma ((n : F) * alpha + 1) / L.Gamma ((n : F) + 1))
  let a := a * L.Pow (1 + zeta * zeta) (0.5 * (n : F))
  let a := a * L.Sin ((n : F) * (0.5 * L.Pi * alpha + L.Atan zeta))
  a * L.Pow x (-alpha * (n : F))

/-- The loop `for !done` of `PdfBergstrom.ScaledValue`, entered with the counter
`n` and the partial sum `sum`; `eps` is the local threshold `pdf.eps / x * math.Pi`.
A pass sets `done` when `math.Abs(delta) < eps` or when `n >= pdf.limit`, and sets
`err` in the second case only; the error is set in no pass but the last, so it is
not carried between passes.  The result is the counter, the sum and the error at
the exit of the loop. -/
def PdfBergstrom.loop (L : GoMath F) (pdf : PdfBergstrom F) (x alpha zeta eps : F)
    (n : Int) (sum : F) : Int × F × Option (Error F) :=
  let delta := PdfBergstrom.delta L x alpha zeta n
  let sum := sum + delta
  let err : Option (Error F) :=
    if n ≥ pdf.limit then some (Error.iterationLimit pdf.limit) else none
  let n1 := n + 1
  if _hdone : |delta| < eps ∨ n ≥ pdf.limit then
    (n1, sum, err)
  else
    PdfBergstrom.loop L pdf x alpha zeta eps n1 sum
termination_by (pdf.limit - n).toNat
decreasing_by
  have h1 : ¬ (n ≥ pdf.limit) := fun h2 => _hdone (Or.inr h2)
  exact (Int.toNat_lt_toNat (sub_pos.mpr (lt_of_not_ge h1))).mpr (by omega)

/-- `PdfBergstrom.ScaledValue`. -/
def PdfBergstrom.ScaledValue (L : GoMath F) (pdf : PdfBergstrom F) (x alpha beta : F) :
    F × Option (Error F) :=
  let zeta := beta * L.Tan (0.5 * L.Pi * alpha)
  let eps := pdf.eps / x * L.Pi
  let r := PdfBergstrom.loop L pdf x alpha zeta eps 1 0.0
  let sum := r.2.1
  let err := r.2.2
  let sum := sum / (x * L.Pi)
  (sum, err)

/-- The generator `*PdfBergstrom` seen through the interface `Pdf`. -/
def PdfBergstrom.toPdf (L : GoMath F) (pdf : PdfBergstrom F) : Pdf F :=
  { ScaledValue := PdfBergstrom.ScaledValue L pdf }

/-! ## belov.go -/

/-- `componentBelov`. -/
def componentBelov (L : GoMath F) (x t alpha beta : F) : F :=
  let h := x * t + beta * (t - L.Pow t alpha) * L.Tan (0.5 * L.Pi * alpha)
  L.Cos h * L.Exp (-L.Pow t alpha) / L.Pi

/-- `PdfBelov.ScaledValue`; the struct `PdfBelov` has no field.  The source ends with
`return 0, nil` after an `if`/`else if`/`else` whose three branches all return; that
statement follows no path and has no counterpart here. -/
def PdfBelov.ScaledValue (L : GoMath F) (Q : FixedRules F) (x alpha beta : F) :
    F × Option (Error F) :=
  if alpha = 2 then
    (L.Exp (-0.25 * x * x) / L.Sqrt (4.0 * L.Pi), none)
  else if alpha = 1 ∧ beta = 0 then
    (1.0 / ((1.0 + x * x) * L.Pi), none)
  else
    let tval : F := 8.0
    let v1 := Q.GaussLaguerre (fun t => componentBelov L x (t + tval) alpha beta) 0.0
    let v2 := Q.GaussLegendre1024 (fun t => componentBelov L x t alpha beta) 0.0 tval
    (v1 + v2, none)

/-- The generator `*PdfBelov` seen through the interface `Pdf`. -/
def PdfBelov.toPdf (L : GoMath F) (Q : FixedRules F) : Pdf F :=
  { ScaledValue := PdfBelov.ScaledValue L Q }

/-! ## Interpretation of `math` over the reals -/

/-- The functions of `math` as the real functions of Mathlib; no real number is a
NaN or an infinity. -/
noncomputable def realMath : GoMath ℝ :=
  { Pi := Real.pi, Exp := Real.exp, Log := Real.log, Sqrt := Real.sqrt, Tan := Real.tan,
    Atan := Real.arctan, Sin := Real.sin, Cos := Real.cos, Pow := fun x y => x ^ y,
    Gamma := Real.Gamma, IsNaN := fun _ => false, IsInf := fun _ _ => false }

/-! ## Named branches of `PdfZ.ScaledValue` -/

/-- The pair returned by the branch `x == zeta` of `PdfZ.ScaledValue`. -/
def PdfZ.atZeta (L : GoMath F) (alpha beta : F) : F × Option (Error F) :=
  let zeta := -beta * L.Tan (0.5 * L.Pi * alpha)
  let eps := L.Atan (-zeta) / alpha
  let p := L.Gamma (1 + 1 / alpha) * L.Cos eps /
    (L.Pi * L.Pow (1 + zeta * zeta) (0.5 / alpha))
  (p, none)

/-- The pair returned by the branch `x > zeta` of `PdfZ.ScaledValue`: one call of
`integrate`, no call of `ScaledValue`. -/
def PdfZ.aboveZeta (L : GoMath F) (bisect : Bisection F) (pdf : PdfZ F)
    (x alpha beta : F) : F × Option (Error F) :=
  let zeta := -beta * L.Tan (0.5 * L.Pi * alpha)
  let eps := L.Atan (-zeta) / alpha
  let gamma := L.Pow (x - zeta) (alpha / (alpha - 1.0))
  let a := -eps
  let b := 0.5 * L.Pi
  let r := pdf.integrate bisect
    (fun theta => componentNeq1 L theta alpha beta eps * gamma - 1.0)
    (fun theta => integrandNeq1 L theta alpha beta eps gamma)
    a b
  let p := r.1
  let err := r.2
  let p := p * (alpha * L.Pow (x - zeta) (1.0 / (alpha - 1.0)) / (L.Pi * |alpha - 1|))
  (p, err)

/-- A midpoint rule that also reports an error, as an `Integrator`. -/
def midpointRule : Integrator F :=
  fun g a b _ _ _ => ((b - a) * g ((a + b) / 2), 0, some (Error.external "quad"))

/-- A root finder that returns the midpoint of the bracket, as a `Bisection`. -/
def midpointRoot : Bisection F :=
  fun f a b _ _ => ((a + b) / 2, f ((a + b) / 2), none)

/-! ## The Bergstrom series in the words of the specification -/

/-- The `n`-th term of the series of the specification:
`(-1)^(n+1) * Gamma(n*alpha+1)/Gamma(n+1) * (1+zeta^2)^(n/2) *
sin(n*(pi*alpha/2 + atan(zeta))) * x^(-alpha*n)` with `zeta = beta*tan(pi*alpha/2)`. -/
def bergstromTerm (L : GoMath F) (x alpha beta : F) (n : Nat) : F :=
  let zeta := beta * L.Tan (L.Pi * alpha / 2)
  (-1) ^ (n + 1) * (L.Gamma ((n : F) * alpha + 1) / L.Gamma ((n : F) + 1)) *
    L.Pow (1 + zeta ^ 2) ((n : F) / 2) *
    L.Sin ((n : F) * (L.Pi * alpha / 2 + L.Atan zeta)) *
    L.Pow x (-alpha * (n : F))

/-! ## Generators used as test inputs -/

/-- A generator used to exercise `Value`: it returns a non-zero value and an error. -/
def noisyPdf : Pdf ℚ :=
  { ScaledValue := fun x alpha beta => (x + alpha + beta + 7, some (Error.external "noise")) }

/-- A generator that returns no error. -/
def quietPdf : Pdf F :=
  { ScaledValue := fun _ _ _ => (1, none) }

/-! ## sample.go -/

/-- The global source of package `math/rand`: each draw returns a number and the
next state of the source. -/
structure Rand (F S : Type) where
  Float64 : S → F × S
  ExpFloat64 : S → F × S

/-- The loop `w := 0.0; for w == 0.0 { w = rand.ExpFloat64() }`: it draws until the
draw is not zero.  `fuel` bounds the number of draws; `none` stands for a loop that
has not ended within that bound. -/
def drawNonZero {S : Type} (R : Rand F S) : Nat → S → Option (F × S)
  | 0, _ => none
  | fuel + 1, s =>
    let r := R.ExpFloat64 s
    if r.1 = 0.0 then drawNonZero R fuel r.2 else some r

/-- The value `sigma*t*s + mu` computed by the last statements of `symmetric` from the
uniform variate `u` and the exponential draw `v`. -/
def symmetricGeneral (L : GoMath F) (alpha mu sigma u v : F) : F :=
  let t := L.Sin (alpha * u) / L.Pow (L.Cos u) (1.0 / alpha)
  let s := L.Pow (L.Cos ((1.0 - alpha) * u) / v) ((1.0 - alpha) / alpha)
  sigma * t * s + mu

/-- `symmetric`: the case `beta == 0` of the sampler. -/
def symmetric {S : Type} (L : GoMath F) (R : Rand F S) (fuel : Nat)
    (alpha mu sigma : F) (st : S) : Option (F × S) :=
  let r := R.Float64 st
  let u := L.Pi * (r.1 - 0.5)
  if alpha = 1.0 then
    some (sigma * L.Tan u + mu, r.2)
  else
    match drawNonZero R fuel r.2 with
    | none => none
    | some (v, st) =>
      if alpha = 2.0 then
        some (2.0 * L.Sin u * L.Sqrt v * sigma + mu, st)
      else
        some (symmetricGeneral L alpha mu sigma u v, st)

/-- `Sample`: one draw from the general Levy-stable distribution. -/
def Sample {S : Type} (L : GoMath F) (R : Rand F S) (fuel : Nat)
    (alpha beta mu sigma : F) (st : S) : Option (F × S) :=
  if beta = 0.0 then
    symmetric L R fuel alpha mu sigma st
  else
    let r := R.Float64 st
    let v := L.Pi * (r.1 - 0.5)
    match drawNonZero R fuel r.2 with
    | none => none
    | some (w, st) =>
      if alpha = 1.0 then
        let x := ((0.5 * L.Pi + beta * v) * L.Tan v -
          beta * L.Log (0.5 * L.Pi * w * L.Cos v / (0.5 * L.Pi + beta * v))) / (0.5 * L.Pi)
        some (sigma * x + beta * sigma * L.Log sigma / (0.5 * L.Pi) + mu, st)
      else
        let t := beta * L.Tan (0.5 * L.Pi * alpha)
        let s := L.Pow (1.0 + t * t) (1.0 / (2.0 * alpha))
        let b := L.Atan t / alpha
        let x := s * L.Sin (alpha * (v + b)) *
          L.Pow (L.Cos (v - alpha * (v + b)) / w) ((1.0 - alpha) / alpha) /
          L.Pow (L.Cos v) (1.0 / alpha)
        some (sigma * x + mu, st)

/-- `GaussSample`. -/
def GaussSample {S : Type} (L : GoMath F) (R : Rand F S) (fuel : Nat)
    (mu sigma : F) (st : S) : Option (F × S) :=
  symmetric L R fuel 2.0 mu (sigma / L.Sqrt 2.0) st

/-- `CauchySample`. -/
def CauchySample {S : Type} (L : GoMath F) (R : Rand F S) (fuel : Nat)
    (mu sigma : F) (st : S) : Option (F × S) :=
  symmetric L R fuel 1.0 mu sigma st

/-- `LevySample`. -/
def LevySample {S : Type} (L : GoMath F) (R : Rand F S) (fuel : Nat)
    (mu sigma : F) (st : S) : Option (F × S) :=
  Sample L R fuel 0.5 1.0 mu sigma st

/-- A source whose uniform draws all give `U` and whose exponential draws all give
`W`; its state counts the draws made. -/
def fixedDraws (U W : F) : Rand F Nat :=
  { Float64 := fun n => (U, n + 1), ExpFloat64 := fun n => (W, n + 1) }

/-- The state of the source after `j` exponential draws made from the state `st`. -/
def afterExpDraws {S : Type} (R : Rand F S) : Nat → S → S
  | 0, st => st
  | j + 1, st => afterExpDraws R j (R.ExpFloat64 st).2

/-- A source whose state counts the draws made: uniform draws give `U`; an exponential
draw gives 0 when at most one draw was made before it, and `W` afterwards. -/
def zeroThenDraws (U W : F) : Rand F Nat :=
  { Float64 := fun n => (U, n + 1),
    ExpFloat64 := fun n => (if n ≤ 1 then 0 else W, n + 1) }

/-! ## Further named branches -/

/-- The pair returned by the branch `alpha` close to 1, `beta` not close to 0 of
`PdfZ.ScaledValue`. -/
def PdfZ.eq1Integral (L : GoMath F) (bisect : Bisection F) (pdf : PdfZ F)
    (x beta : F) : F × Option (Error F) :=
  let gamma := L.Exp (-0.5 * L.Pi * x / beta)
  let a := -0.5 * L.Pi
  let b := 0.5 * L.Pi
  let r := pdf.integrate bisect
    (fun theta => componentEq1 L theta beta * gamma - 1.0)
    (fun theta => integrandEq1 L theta beta gamma)
    a b
  let p := r.1
  let err := r.2
  let p := p * (0.5 * gamma / |beta|)
  (p, err)

/-- The pair returned by the `else` branch of `PdfBelov.ScaledValue`. -/
def PdfBelov.twoPieces (L : GoMath F) (Q : FixedRules F) (x alpha beta : F) :
    F × Option (Error F) :=
  let tval : F := 8.0
  let v1 := Q.GaussLaguerre (fun t => componentBelov L x (t + tval) alpha beta) 0.0
  let v2 := Q.GaussLegendre1024 (fun t => componentBelov L x t alpha beta) 0.0 tval
  (v1 + v2, none)

/-! ## The law of the draws -/

/-- The value returned by `Sample(alpha, beta, mu, sigma)` when the uniform draw `U`
gives the variate `V = pi*(U - 1/2)` and the exponential draws give `W`.  For `W = 0`
the redraw loop does not end; 0 stands for the missing value there. -/
noncomputable def sampleAt (alpha beta mu sigma V W : ℝ) : ℝ :=
  match Sample realMath (fixedDraws (V / Real.pi + 1 / 2) W) 1 alpha beta mu sigma 0 with
  | some r => r.1
  | none => 0

/-- The expectation of `g V W` for independent draws, `V` uniform on `(-pi/2, pi/2)` and
`W` exponential with mean 1: the integral of `g` against the density `(1/pi)*exp(-w)`. -/
noncomputable def expectation (g : ℝ → ℝ → ℝ) : ℝ :=
  (1 / Real.pi) *
    ∫ v in (-(Real.pi / 2))..(Real.pi / 2), ∫ w in Set.Ioi (0:ℝ), g v w * Real.exp (-w)

/-! # Theorems -/

/-! ## The dispatcher `Value` -/


theorem Value_of_alpha_out (pdf : Pdf F) (x alpha beta mu sigma : F)
    (h : alpha ≤ 0 ∨ alpha > 2) :
    Value pdf x alpha beta mu sigma = (0, some (Error.alphaRange alpha)) := by
  unfold Value
  rw [if_pos h]

theorem Value_of_beta_out (pdf : Pdf F) (x alpha beta mu sigma : F)
    (ha : ¬ (alpha ≤ 0 ∨ alpha > 2)) (h : beta < -1 ∨ beta > 1) :
    Value pdf x alpha beta mu sigma = (0, some (Error.betaRange beta)) := by
  unfold Value
  rw [if_neg ha, if_pos h]

theorem Value_of_in_range (pdf : Pdf F) (x alpha beta mu sigma : F)
    (ha : ¬ (alpha ≤ 0 ∨ alpha > 2)) (hb : ¬ (beta < -1 ∨ beta > 1)) :
    Value pdf x alpha beta mu sigma =
      ((pdf.ScaledValue ((x - mu) / sigma) alpha beta).1 / sigma,
        (pdf.ScaledValue ((x - mu) / sigma) alpha beta).2) := by
  unfold Value
  rw [if_neg ha, if_neg hb]

/-- The examples of the range check: `alpha = 2`, `beta = 1` and `beta = -1` pass it,
`alpha = 0`, `alpha = 2.5` and `beta = 1.5` do not. -/
theorem Value_range_examples (pdf : Pdf F) (x mu sigma : F) :
    (Value pdf x 2 1 mu sigma).2 = (pdf.ScaledValue ((x - mu) / sigma) 2 1).2 ∧
      (Value pdf x 2 (-1) mu sigma).2 = (pdf.ScaledValue ((x - mu) / sigma) 2 (-1)).2 ∧
      Value pdf x 0 0 mu sigma = (0, some (Error.alphaRange 0)) ∧
      Value pdf x 2.5 0 mu sigma = (0, some (Error.alphaRange 2.5)) ∧
      Value pdf x 1 1.5 mu sigma = (0, some (Error.betaRange 1.5)) := by
  refine ⟨?_, ?_, ?_, ?_, ?_⟩
  · rw [Value_of_in_range pdf x 2 1 mu sigma (by norm_num) (by norm_num)]
  · rw [Value_of_in_range pdf x 2 (-1) mu sigma (by norm_num) (by norm_num)]
  · exact Value_of_alpha_out pdf x 0 0 mu sigma (by norm_num)
  · exact Value_of_alpha_out pdf x 2.5 0 mu sigma (by norm_num)
  · exact Value_of_beta_out pdf x 1 1.5 mu sigma (by norm_num) (by norm_num)

/-- C1: `Value` returns a range error, whatever the generator, exactly when
`alpha <= 0` or `alpha > 2` or `beta < -1` or `beta > 1`; the returned pair is then
`(0, range error)`.  When the parameters are in range the error of `Value` is the one
the generator returned at the scaled coordinate, so `Value` adds no range error of
its own: `alpha = 2`, `beta = 1` and `beta = -1` are accepted. -/
theorem Value_rangeError_iff (x alpha beta mu sigma : F) :
    ((∀ pdf : Pdf F, ∃ e : Error F, e.IsRange ∧
          Value pdf x alpha beta mu sigma = (0, some e)) ↔
        (alpha ≤ 0 ∨ alpha > 2 ∨ beta < -1 ∨ beta > 1)) ∧
    (∀ pdf : Pdf F, ¬ (alpha ≤ 0 ∨ alpha > 2 ∨ beta < -1 ∨ beta > 1) →
        (Value pdf x alpha beta mu sigma).2 =
          (pdf.ScaledValue ((x - mu) / sigma) alpha beta).2) := by
  constructor
  · constructor
    · intro h
      by_contra hc
      have ha : ¬ (alpha ≤ 0 ∨ alpha > 2) := fun h1 =>
        hc (h1.elim (fun h2 => Or.inl h2) (fun h2 => Or.inr (Or.inl h2)))
      have hb : ¬ (beta < -1 ∨ beta > 1) := fun h1 =>
        hc (h1.elim (fun h2 => Or.inr (Or.inr (Or.inl h2)))
          (fun h2 => Or.inr (Or.inr (Or.inr h2))))
      obtain ⟨e, _, he⟩ := h quietPdf
      rw [Value_of_in_range quietPdf x alpha beta mu sigma ha hb] at he
      have h2 : (quietPdf.ScaledValue ((x - mu) / sigma) alpha beta).2 = some e :=
        congrArg Prod.snd he
      simp [quietPdf] at h2
    · intro h pdf
      by_cases ha : alpha ≤ 0 ∨ alpha > 2
      · exact ⟨Error.alphaRange alpha, trivial, Value_of_alpha_out pdf x alpha beta mu sigma ha⟩
      · have hb : beta < -1 ∨ beta > 1 := by
          rcases h with h | h | h | h
          · exact absurd (Or.inl h) ha
          · exact absurd (Or.inr h) ha
          · exact Or.inl h
          · exact Or.inr h
        exact ⟨Error.betaRange beta, trivial, Value_of_beta_out pdf x alpha beta mu sigma ha hb⟩
  · intro pdf hc
    have ha : ¬ (alpha ≤ 0 ∨ alpha > 2) := fun h1 =>
      hc (h1.elim (fun h2 => Or.inl h2) (fun h2 => Or.inr (Or.inl h2)))
    have hb : ¬ (beta < -1 ∨ beta > 1) := fun h1 =>
      hc (h1.elim (fun h2 => Or.inr (Or.inr (Or.inl h2)))
        (fun h2 => Or.inr (Or.inr (Or.inr h2))))
    rw [Value_of_in_range pdf x alpha beta mu sigma ha hb]

/-- C2: when `alpha` or `beta` is out of range `Value` returns the value 0 and does
not consult the generator: the result is the same for every generator and for every
`x`, `mu` and `sigma`, `sigma = 0` included. -/
theorem Value_outOfRange_zero (pdf : Pdf F) (x alpha beta mu sigma : F)
    (h : alpha ≤ 0 ∨ alpha > 2 ∨ beta < -1 ∨ beta > 1) :
    (Value pdf x alpha beta mu sigma).1 = 0 ∧
      ∀ (pdf2 : Pdf F) (x2 mu2 sigma2 : F),
        Value pdf2 x2 alpha beta mu2 sigma2 = Value pdf x alpha beta mu sigma := by
  by_cases ha : alpha ≤ 0 ∨ alpha > 2
  · refine ⟨by rw [Value_of_alpha_out pdf x alpha beta mu sigma ha], ?_⟩
    intro pdf2 x2 mu2 sigma2
    rw [Value_of_alpha_out pdf x alpha beta mu sigma ha,
      Value_of_alpha_out pdf2 x2 alpha beta mu2 sigma2 ha]
  · have hb : beta < -1 ∨ beta > 1 := by
      rcases h with h | h | h | h
      · exact absurd (Or.inl h) ha
      · exact absurd (Or.inr h) ha
      · exact Or.inl h
      · exact Or.inr h
    refine ⟨by rw [Value_of_beta_out pdf x alpha beta mu sigma ha hb], ?_⟩
    intro pdf2 x2 mu2 sigma2
    rw [Value_of_beta_out pdf x alpha beta mu sigma ha hb,
      Value_of_beta_out pdf2 x2 alpha beta mu2 sigma2 ha hb]

/-- Witness of C2: `alpha = 2.5`, `sigma = 0` and a generator that returns a non-zero
value together with an error. -/
theorem Value_outOfRange_zero_witness :
    ((5 / 2 : ℚ) ≤ 0 ∨ (5 / 2 : ℚ) > 2 ∨ (0 : ℚ) < -1 ∨ (0 : ℚ) > 1) ∧
    ((Value noisyPdf 3 (5 / 2) 0 1 0).1 = 0 ∧
      ∀ (pdf2 : Pdf ℚ) (x2 mu2 sigma2 : ℚ),
        Value pdf2 x2 (5 / 2) 0 mu2 sigma2 = Value noisyPdf 3 (5 / 2) 0 1 0) :=
  ⟨by norm_num, Value_outOfRange_zero noisyPdf 3 (5 / 2) 0 1 0 (by norm_num)⟩

/-- C3: for `alpha` in `(0,2]` and `beta` in `[-1,1]`, if the generator returns
`(v, e)` at the scaled coordinate `(x - mu) / sigma` then `Value` returns
`(v / sigma, e)`: the value is divided by `sigma` and the error is passed through. -/
theorem Value_inRange_scaled (pdf : Pdf F) (x alpha beta mu sigma v : F)
    (e : Option (Error F))
    (ha0 : 0 < alpha) (ha2 : alpha ≤ 2) (hb0 : -1 ≤ beta) (hb1 : beta ≤ 1)
    (hg : pdf.ScaledValue ((x - mu) / sigma) alpha beta = (v, e)) :
    Value pdf x alpha beta mu sigma = (v / sigma, e) := by
  have ha : ¬ (alpha ≤ 0 ∨ alpha > 2) := by
    rintro (h | h)
    · exact absurd ha0 (not_lt.mpr h)
    · exact absurd ha2 (not_le.mpr h)
  have hb : ¬ (beta < -1 ∨ beta > 1) := by
    rintro (h | h)
    · exact absurd hb0 (not_le.mpr h)
    · exact absurd hb1 (not_le.mpr h)
  rw [Value_of_in_range pdf x alpha beta mu sigma ha hb, hg]

/-- Witness of C3: `x = 3`, `mu = 1`, `sigma = 2`, `alpha = 2`, `beta = -1`. -/
theorem Value_inRange_scaled_witness :
    Value noisyPdf 3 2 (-1) 1 2 = ((9 : ℚ) / 2, some (Error.external "noise")) :=
  Value_inRange_scaled noisyPdf 3 2 (-1) 1 2 9 (some (Error.external "noise"))
    (by norm_num) (by norm_num) (by norm_num) (by norm_num) (by norm_num [noisyPdf])

theorem closeTo_default_two_two : closeTo (2:F) 2 1e-6 = true := by
  simp only [closeTo, decide_eq_true_eq]
  norm_num

theorem closeTo_default_one_two : closeTo (1:F) 2 1e-6 = false := by
  simp only [closeTo, decide_eq_false_iff_not]
  norm_num
  rw [abs_of_pos (by norm_num)]
  norm_num

theorem closeTo_default_one_one : closeTo (1:F) 1 1e-6 = true := by
  simp only [closeTo, decide_eq_true_eq]
  norm_num

theorem closeTo_default_zero_zero : closeTo (0:F) 0 1e-6 = true := by
  simp only [closeTo, decide_eq_true_eq]
  norm_num

/-- C4 (amended): for the default `PdfZ` and for `PdfBelov`, for every `x` and every
`beta`, `ScaledValue(x, 2, beta)` is `exp(-x^2/4)/sqrt(4*pi)` with no error. -/
theorem ScaledValue_gaussian (L : GoMath F) (bisect : Bisection F) (q : Integrator F)
    (Q : FixedRules F) (x beta : F) :
    PdfZ.ScaledValue L bisect (NewPdfZ q) x 2 beta =
        (L.Exp (-(x ^ 2) / 4) / L.Sqrt (4 * L.Pi), none) ∧
      PdfBelov.ScaledValue L Q x 2 beta =
        (L.Exp (-(x ^ 2) / 4) / L.Sqrt (4 * L.Pi), none) := by
  have h1 : -0.25 * x * x = -(x ^ 2) / 4 := by norm_num; ring
  have h2 : (4.0 : F) = 4 := by norm_num
  constructor
  · rw [PdfZ.ScaledValue]
    have hc : closeTo (2:F) 2 (NewPdfZ q).alpha_tol = true := closeTo_default_two_two
    rw [if_pos hc, h1, h2]
  · unfold PdfBelov.ScaledValue
    rw [if_pos rfl, h1, h2]

/-- C5 (amended): for the default `PdfZ` and for `PdfBelov`, for every `x`,
`ScaledValue(x, 1, 0)` is the Cauchy density `1/(pi*(1+x^2))` with no error. -/
theorem ScaledValue_cauchy (L : GoMath F) (bisect : Bisection F) (q : Integrator F)
    (Q : FixedRules F) (x : F) :
    PdfZ.ScaledValue L bisect (NewPdfZ q) x 1 0 = (1 / (L.Pi * (1 + x ^ 2)), none) ∧
      PdfBelov.ScaledValue L Q x 1 0 = (1 / (L.Pi * (1 + x ^ 2)), none) := by
  have h1 : (1.0 : F) / ((1.0 + x * x) * L.Pi) = 1 / (L.Pi * (1 + x ^ 2)) := by
    norm_num; ring
  constructor
  · rw [PdfZ.ScaledValue]
    have hc2 : closeTo (1:F) 2 (NewPdfZ q).alpha_tol = false := closeTo_default_one_two
    have hc1 : closeTo (1:F) 1 (NewPdfZ q).alpha_tol = true := closeTo_default_one_one
    have hc0 : closeTo (0:F) 0 (NewPdfZ q).beta_tol = true := closeTo_default_zero_zero
    simp only [hc2, hc1, hc0, h1, Bool.not_true, Bool.and_false, Bool.and_true, if_true,
      Bool.false_eq_true, if_false]
  · unfold PdfBelov.ScaledValue
    have h2 : ¬ ((1:F) = 2) := by norm_num
    rw [if_neg h2, if_pos ⟨rfl, rfl⟩, h1]

/-! ## The Bergstrom series -/

theorem PdfBergstrom.loop_limit (L : GoMath F) (pdf : PdfBergstrom F) (x alpha zeta eps : F)
    (n : Int) (sum : F) (h : n ≥ pdf.limit) :
    PdfBergstrom.loop L pdf x alpha zeta eps n sum =
      (n + 1, sum + PdfBergstrom.delta L x alpha zeta n,
        some (Error.iterationLimit pdf.limit)) := by
  rw [PdfBergstrom.loop]
  simp only [h, or_true, dite_true, if_true]

theorem PdfBergstrom.loop_converged (L : GoMath F) (pdf : PdfBergstrom F)
    (x alpha zeta eps : F) (n : Int) (sum : F) (h : ¬ n ≥ pdf.limit)
    (hd : |PdfBergstrom.delta L x alpha zeta n| < eps) :
    PdfBergstrom.loop L pdf x alpha zeta eps n sum =
      (n + 1, sum + PdfBergstrom.delta L x alpha zeta n, none) := by
  rw [PdfBergstrom.loop]
  simp only [h, hd, true_or, dite_true, if_false]

theorem PdfBergstrom.loop_continue (L : GoMath F) (pdf : PdfBergstrom F)
    (x alpha zeta eps : F) (n : Int) (sum : F) (h : ¬ n ≥ pdf.limit)
    (hd : ¬ |PdfBergstrom.delta L x alpha zeta n| < eps) :
    PdfBergstrom.loop L pdf x alpha zeta eps n sum =
      PdfBergstrom.loop L pdf x alpha zeta eps (n + 1)
        (sum + PdfBergstrom.delta L x alpha zeta n) := by
  rw [PdfBergstrom.loop]
  simp only [h, hd, or_self, dite_false]

theorem delta_gauss_one : PdfBergstrom.delta realMath (1:ℝ) 2 0 1 = 0 := by
  have h : ((1:ℤ):ℝ) * (0.5 * Real.pi * 2 + Real.arctan 0) = Real.pi := by
    simp; ring
  simp only [PdfBergstrom.delta, realMath]
  rw [h, Real.sin_pi]
  simp

theorem delta_cauchy_one : PdfBergstrom.delta realMath (1:ℝ) 1 0 1 = 1 := by
  have h : ((1:ℤ):ℝ) * (0.5 * Real.pi * 1 + Real.arctan 0) = Real.pi / 2 := by
    simp; ring
  simp only [PdfBergstrom.delta, realMath]
  rw [h, Real.sin_pi_div_two]
  norm_num

theorem delta_cauchy_two : PdfBergstrom.delta realMath (1:ℝ) 1 0 2 = 0 := by
  have h : ((2:ℤ):ℝ) * (0.5 * Real.pi * 1 + Real.arctan 0) = Real.pi := by
    simp; ring
  simp only [PdfBergstrom.delta, realMath]
  rw [h, Real.sin_pi]
  simp

theorem realMath_threshold_pos :
    (0:ℝ) < (NewPdfBergstrom : PdfBergstrom ℝ).eps / 1 * realMath.Pi := by
  simp [NewPdfBergstrom, realMath]
  positivity

theorem realMath_threshold_lt_one :
    (NewPdfBergstrom : PdfBergstrom ℝ).eps / 1 * realMath.Pi < 1 := by
  have h := Real.pi_lt_four
  simp only [NewPdfBergstrom, realMath]
  norm_num
  nlinarith

/-- C4 (counterexample): at `x = 1`, `alpha = 2`, `beta = 0` the default `PdfBergstrom`
returns `(0, nil)` over the reals, which is not the Gaussian density. -/
theorem PdfBergstrom_gaussian_counterexample :
    PdfBergstrom.ScaledValue realMath NewPdfBergstrom 1 2 0 = (0, none) ∧
      PdfBergstrom.ScaledValue realMath NewPdfBergstrom 1 2 0 ≠
        (Real.exp (-((1:ℝ) ^ 2) / 4) / Real.sqrt (4 * Real.pi), none) := by
  have hz : (0:ℝ) * realMath.Tan (0.5 * realMath.Pi * 2) = 0 := by simp
  have hpos : |PdfBergstrom.delta realMath (1:ℝ) 2 0 1| <
      (NewPdfBergstrom : PdfBergstrom ℝ).eps / 1 * realMath.Pi := by
    rw [delta_gauss_one, abs_zero]
    exact realMath_threshold_pos
  have hv : PdfBergstrom.ScaledValue realMath NewPdfBergstrom 1 2 0 = (0, none) := by
    unfold PdfBergstrom.ScaledValue
    simp only []
    rw [hz, PdfBergstrom.loop_converged realMath _ _ _ _ _ _ _ (by simp [NewPdfBergstrom]) hpos,
      delta_gauss_one]
    norm_num
  refine ⟨hv, ?_⟩
  rw [hv]
  intro h
  have h1 : (0:ℝ) = Real.exp (-((1:ℝ) ^ 2) / 4) / Real.sqrt (4 * Real.pi) :=
    congrArg Prod.fst h
  have h2 : (0:ℝ) < Real.exp (-((1:ℝ) ^ 2) / 4) / Real.sqrt (4 * Real.pi) := by
    apply div_pos (Real.exp_pos _)
    apply Real.sqrt_pos.mpr
    have := Real.pi_pos
    linarith
  linarith

/-- C5 (counterexample): at `x = 1`, `alpha = 1`, `beta = 0` the default `PdfBergstrom`
stops after two terms and returns `(1/pi, nil)` over the reals, twice the Cauchy
density `1/(2*pi)`. -/
theorem PdfBergstrom_cauchy_counterexample :
    PdfBergstrom.ScaledValue realMath NewPdfBergstrom 1 1 0 = (1 / Real.pi, none) ∧
      PdfBergstrom.ScaledValue realMath NewPdfBergstrom 1 1 0 ≠
        (1 / (Real.pi * (1 + (1:ℝ) ^ 2)), none) := by
  have hz : (0:ℝ) * realMath.Tan (0.5 * realMath.Pi * 1) = 0 := by simp
  have h1 : ¬ |PdfBergstrom.delta realMath (1:ℝ) 1 0 1| <
      (NewPdfBergstrom : PdfBergstrom ℝ).eps / 1 * realMath.Pi := by
    rw [delta_cauchy_one, abs_one]
    exact not_lt.mpr (le_of_lt realMath_threshold_lt_one)
  have h2 : |PdfBergstrom.delta realMath (1:ℝ) 1 0 (1 + 1)| <
      (NewPdfBergstrom : PdfBergstrom ℝ).eps / 1 * realMath.Pi := by
    have : (1 + 1 : ℤ) = 2 := rfl
    rw [this, delta_cauchy_two, abs_zero]
    exact realMath_threshold_pos
  have hv : PdfBergstrom.ScaledValue realMath NewPdfBergstrom 1 1 0 = (1 / Real.pi, none) := by
    unfold PdfBergstrom.ScaledValue
    simp only []
    rw [hz, PdfBergstrom.loop_continue realMath _ _ _ _ _ _ _ (by simp [NewPdfBergstrom]) h1,
      PdfBergstrom.loop_converged realMath _ _ _ _ _ _ _ (by simp [NewPdfBergstrom]) h2]
    have : (1 + 1 : ℤ) = 2 := rfl
    rw [this, delta_cauchy_one, delta_cauchy_two]
    simp only [realMath]
    norm_num
  refine ⟨hv, ?_⟩
  rw [hv]
  intro h
  have h3 : 1 / Real.pi = 1 / (Real.pi * (1 + (1:ℝ) ^ 2)) := congrArg Prod.fst h
  have hpi := Real.pi_pos
  field_simp at h3

/-! ## The regimes of `PdfZ.ScaledValue` -/

theorem PdfZ.ScaledValue_of_gauss (L : GoMath F) (bisect : Bisection F) (pdf : PdfZ F)
    (x alpha beta : F) (h2 : closeTo alpha 2 pdf.alpha_tol = true) :
    PdfZ.ScaledValue L bisect pdf x alpha beta =
      (L.Exp (-0.25 * x * x) / L.Sqrt (4.0 * L.Pi), none) := by
  rw [PdfZ.ScaledValue, if_pos h2]

theorem PdfZ.ScaledValue_at_zeta (L : GoMath F) (bisect : Bisection F) (pdf : PdfZ F)
    (x alpha beta : F) (h2 : closeTo alpha 2 pdf.alpha_tol = false)
    (h1 : closeTo alpha 1 pdf.alpha_tol = false)
    (hx : x = -beta * L.Tan (0.5 * L.Pi * alpha)) :
    PdfZ.ScaledValue L bisect pdf x alpha beta = PdfZ.atZeta L alpha beta := by
  rw [PdfZ.ScaledValue]
  simp only [h2, h1, Bool.false_and, Bool.false_eq_true, if_false, Bool.not_false, if_true]
  rw [if_pos hx]
  rfl

theorem PdfZ.ScaledValue_above_zeta (L : GoMath F) (bisect : Bisection F) (pdf : PdfZ F)
    (x alpha beta : F) (h2 : closeTo alpha 2 pdf.alpha_tol = false)
    (h1 : closeTo alpha 1 pdf.alpha_tol = false)
    (hx : x > -beta * L.Tan (0.5 * L.Pi * alpha)) :
    PdfZ.ScaledValue L bisect pdf x alpha beta = PdfZ.aboveZeta L bisect pdf x alpha beta := by
  rw [PdfZ.ScaledValue]
  simp only [h2, h1, Bool.false_and, Bool.false_eq_true, if_false, Bool.not_false, if_true]
  rw [if_neg (ne_of_gt hx), if_pos hx]
  rfl

theorem PdfZ.ScaledValue_below_zeta (L : GoMath F) (bisect : Bisection F) (pdf : PdfZ F)
    (x alpha beta : F) (h2 : closeTo alpha 2 pdf.alpha_tol = false)
    (h1 : closeTo alpha 1 pdf.alpha_tol = false)
    (hx : x < -beta * L.Tan (0.5 * L.Pi * alpha)) :
    PdfZ.ScaledValue L bisect pdf x alpha beta =
      PdfZ.ScaledValue L bisect pdf (-x) alpha (-beta) := by
  conv_lhs => rw [PdfZ.ScaledValue]
  simp only [h2, h1, Bool.false_and, Bool.false_eq_true, if_false, Bool.not_false, if_true]
  rw [if_neg (ne_of_lt hx), if_neg (not_lt.mpr (le_of_lt hx)), dif_pos hx]

theorem zeta_reflect (L : GoMath F) (alpha beta : F) :
    - -beta * L.Tan (0.5 * L.Pi * alpha) = -(-beta * L.Tan (0.5 * L.Pi * alpha)) := by
  ring

theorem PdfZ.atZeta_reflect (L : GoMath F) (alpha beta : F)
    (hAtan : ∀ z, L.Atan (-z) = -L.Atan z) (hCos : ∀ z, L.Cos (-z) = L.Cos z) :
    PdfZ.atZeta L alpha (-beta) = PdfZ.atZeta L alpha beta := by
  unfold PdfZ.atZeta
  simp only [zeta_reflect, neg_neg, neg_mul_neg]
  rw [hAtan (beta * L.Tan (0.5 * L.Pi * alpha)), neg_div, hCos]
  simp only [neg_mul, neg_neg, mul_neg]

theorem PdfZ.ScaledValue_reflect (L : GoMath F) (bisect : Bisection F) (pdf : PdfZ F)
    (x alpha beta : F)
    (hAtan : ∀ z, L.Atan (-z) = -L.Atan z) (hCos : ∀ z, L.Cos (-z) = L.Cos z)
    (h1 : closeTo alpha 1 pdf.alpha_tol = false) :
    PdfZ.ScaledValue L bisect pdf x alpha beta =
      PdfZ.ScaledValue L bisect pdf (-x) alpha (-beta) := by
  cases h2 : closeTo alpha 2 pdf.alpha_tol with
  | true =>
    rw [PdfZ.ScaledValue_of_gauss L bisect pdf x alpha beta h2,
      PdfZ.ScaledValue_of_gauss L bisect pdf (-x) alpha (-beta) h2]
    have h : -0.25 * -x * -x = -0.25 * x * x := by ring
    rw [h]
  | false =>
    rcases lt_trichotomy x (-beta * L.Tan (0.5 * L.Pi * alpha)) with hx | hx | hx
    · exact PdfZ.ScaledValue_below_zeta L bisect pdf x alpha beta h2 h1 hx
    · have hx2 : -x = - -beta * L.Tan (0.5 * L.Pi * alpha) := by
        rw [zeta_reflect, hx]
      rw [PdfZ.ScaledValue_at_zeta L bisect pdf x alpha beta h2 h1 hx,
        PdfZ.ScaledValue_at_zeta L bisect pdf (-x) alpha (-beta) h2 h1 hx2,
        PdfZ.atZeta_reflect L alpha beta hAtan hCos]
    · have hx2 : -x < - -beta * L.Tan (0.5 * L.Pi * alpha) := by
        rw [zeta_reflect]
        exact neg_lt_neg hx
      rw [PdfZ.ScaledValue_below_zeta L bisect pdf (-x) alpha (-beta) h2 h1 hx2, neg_neg, neg_neg]

theorem realMath_Atan_neg (z : ℝ) : realMath.Atan (-z) = -realMath.Atan z :=
  Real.arctan_neg z

theorem realMath_Cos_neg (z : ℝ) : realMath.Cos (-z) = realMath.Cos z :=
  Real.cos_neg z

theorem closeTo_eq_false_iff (val1 val2 tol : F) :
    closeTo val1 val2 tol = false ↔ ¬ |val1 - val2| < |tol| := by
  simp only [closeTo, decide_eq_false_iff_not]

theorem closeTo_eq_true_iff (val1 val2 tol : F) :
    closeTo val1 val2 tol = true ↔ |val1 - val2| < |tol| := by
  simp only [closeTo, decide_eq_true_eq]

/-- C6: over the reals, for every integrator and root finder, every `x` and `beta`
and every `alpha` that is not within `alpha_tol` of 1, `PdfZ.ScaledValue(x, alpha, beta)`
and `PdfZ.ScaledValue(-x, alpha, -beta)` return the same value and the same error. -/
theorem PdfZ_ScaledValue_symmetry (bisect : Bisection ℝ) (pdf : PdfZ ℝ) (x alpha beta : ℝ)
    (h1 : ¬ |alpha - 1| < |pdf.alpha_tol|) :
    PdfZ.ScaledValue realMath bisect pdf x alpha beta =
      PdfZ.ScaledValue realMath bisect pdf (-x) alpha (-beta) :=
  PdfZ.ScaledValue_reflect realMath bisect pdf x alpha beta realMath_Atan_neg realMath_Cos_neg
    ((closeTo_eq_false_iff alpha 1 pdf.alpha_tol).mpr h1)

/-- Witness of C6: the default tolerances, `x = 1`, `alpha = 1/2`, `beta = 1/4`. -/
theorem PdfZ_ScaledValue_symmetry_witness :
    PdfZ.ScaledValue realMath midpointRoot (NewPdfZ midpointRule) 1 (1 / 2) (1 / 4) =
      PdfZ.ScaledValue realMath midpointRoot (NewPdfZ midpointRule) (-1) (1 / 2) (-(1 / 4)) :=
  PdfZ_ScaledValue_symmetry midpointRoot (NewPdfZ midpointRule) 1 (1 / 2) (1 / 4)
    (by
      simp only [NewPdfZ]
      rw [abs_of_neg (by norm_num), abs_of_pos (by norm_num)]
      norm_num)

/-- C7: when the call on `(x, alpha, beta)` takes the branch `x < zeta` (`alpha` close
neither to 2 nor to 1), the call on `(-x, alpha, -beta)` has `zeta2 = -zeta` and
`-x > zeta2`; the first call returns what the second returns, and the second returns
the pair of the integral branch, which does not call `ScaledValue`. -/
theorem PdfZ_ScaledValue_depth_one (L : GoMath F) (bisect : Bisection F) (pdf : PdfZ F)
    (x alpha beta : F)
    (h2 : ¬ |alpha - 2| < |pdf.alpha_tol|) (h1 : ¬ |alpha - 1| < |pdf.alpha_tol|)
    (hx : x < -beta * L.Tan (0.5 * L.Pi * alpha)) :
    - -beta * L.Tan (0.5 * L.Pi * alpha) = -(-beta * L.Tan (0.5 * L.Pi * alpha)) ∧
      -x > - -beta * L.Tan (0.5 * L.Pi * alpha) ∧
      PdfZ.ScaledValue L bisect pdf x alpha beta =
        PdfZ.ScaledValue L bisect pdf (-x) alpha (-beta) ∧
      PdfZ.ScaledValue L bisect pdf (-x) alpha (-beta) =
        PdfZ.aboveZeta L bisect pdf (-x) alpha (-beta) := by
  have c2 := (closeTo_eq_false_iff alpha 2 pdf.alpha_tol).mpr h2
  have c1 := (closeTo_eq_false_iff alpha 1 pdf.alpha_tol).mpr h1
  have hx2 : -x > - -beta * L.Tan (0.5 * L.Pi * alpha) := by
    rw [zeta_reflect]
    exact neg_lt_neg hx
  exact ⟨zeta_reflect L alpha beta, hx2,
    PdfZ.ScaledValue_below_zeta L bisect pdf x alpha beta c2 c1 hx,
    PdfZ.ScaledValue_above_zeta L bisect pdf (-x) alpha (-beta) c2 c1 hx2⟩

/-- Witness of C7: `beta = 0`, where `zeta = 0`, at `x = -1` and `alpha = 1/2`. -/
theorem PdfZ_ScaledValue_depth_one_witness :
    - -(0:ℝ) * realMath.Tan (0.5 * realMath.Pi * (1 / 2)) =
        -(-(0:ℝ) * realMath.Tan (0.5 * realMath.Pi * (1 / 2))) ∧
      -(-1:ℝ) > - -(0:ℝ) * realMath.Tan (0.5 * realMath.Pi * (1 / 2)) ∧
      PdfZ.ScaledValue realMath midpointRoot (NewPdfZ midpointRule) (-1) (1 / 2) 0 =
        PdfZ.ScaledValue realMath midpointRoot (NewPdfZ midpointRule) (- -1) (1 / 2) (-0) ∧
      PdfZ.ScaledValue realMath midpointRoot (NewPdfZ midpointRule) (- -1) (1 / 2) (-0) =
        PdfZ.aboveZeta realMath midpointRoot (NewPdfZ midpointRule) (- -1) (1 / 2) (-0) :=
  PdfZ_ScaledValue_depth_one realMath midpointRoot (NewPdfZ midpointRule) (-1) (1 / 2) 0
    (by
      simp only [NewPdfZ]
      rw [abs_of_neg (by norm_num), abs_of_pos (by norm_num)]
      norm_num)
    (by
      simp only [NewPdfZ]
      rw [abs_of_neg (by norm_num), abs_of_pos (by norm_num)]
      norm_num)
    (by norm_num)

/-! ## The sum computed by `PdfBergstrom.ScaledValue` -/

theorem PdfBergstrom.loop_spec (L : GoMath F) (pdf : PdfBergstrom F) (x alpha zeta eps : F)
    (d : Nat) : ∀ (k : Nat) (s : F), (pdf.limit - (k : Int)).toNat ≤ d →
    ∃ N : Nat, k ≤ N ∧
      (|PdfBergstrom.delta L x alpha zeta (N : Int)| < eps ∨ (N : Int) ≥ pdf.limit) ∧
      (∀ m : Nat, k ≤ m → m < N →
        ¬ (|PdfBergstrom.delta L x alpha zeta (m : Int)| < eps ∨ (m : Int) ≥ pdf.limit)) ∧
      PdfBergstrom.loop L pdf x alpha zeta eps (k : Int) s =
        ((N : Int) + 1,
          s + ∑ n ∈ Finset.Icc k N, PdfBergstrom.delta L x alpha zeta (n : Int),
          if (N : Int) ≥ pdf.limit then some (Error.iterationLimit pdf.limit) else none) := by
  induction d with
  | zero =>
    intro k s hd
    have hk : (k : Int) ≥ pdf.limit := by omega
    refine ⟨k, le_refl k, Or.inr hk, ?_, ?_⟩
    · intro m h1 h2
      omega
    · rw [PdfBergstrom.loop_limit L pdf x alpha zeta eps k s hk, Finset.Icc_self,
        Finset.sum_singleton, if_pos hk]
  | succ d ih =>
    intro k s hd
    by_cases hk : (k : Int) ≥ pdf.limit
    · refine ⟨k, le_refl k, Or.inr hk, ?_, ?_⟩
      · intro m h1 h2
        omega
      · rw [PdfBergstrom.loop_limit L pdf x alpha zeta eps k s hk, Finset.Icc_self,
          Finset.sum_singleton, if_pos hk]
    · by_cases hc : |PdfBergstrom.delta L x alpha zeta (k : Int)| < eps
      · refine ⟨k, le_refl k, Or.inl hc, ?_, ?_⟩
        · intro m h1 h2
          omega
        · rw [PdfBergstrom.loop_converged L pdf x alpha zeta eps k s hk hc, Finset.Icc_self,
            Finset.sum_singleton, if_neg hk]
      · have hd2 : (pdf.limit - ((k + 1 : Nat) : Int)).toNat ≤ d := by
          push_cast
          omega
        obtain ⟨N, hN1, hN2, hN3, hN4⟩ :=
          ih (k + 1) (s + PdfBergstrom.delta L x alpha zeta (k : Int)) hd2
        refine ⟨N, by omega, hN2, ?_, ?_⟩
        · intro m h1 h2
          by_cases hmk : m = k
          · subst hmk
            intro h3
            rcases h3 with h3 | h3
            · exact hc h3
            · exact hk h3
          · exact hN3 m (by omega) h2
        · rw [PdfBergstrom.loop_continue L pdf x alpha zeta eps k s hk hc]
          have hcast : ((k : Int) + 1) = ((k + 1 : Nat) : Int) := by push_cast; rfl
          rw [hcast, hN4]
          have hkN : k ≤ N := by omega
          have hsum : ∑ n ∈ Finset.Icc k N, PdfBergstrom.delta L x alpha zeta (n : Int) =
              ∑ n ∈ Finset.Icc (k + 1) N, PdfBergstrom.delta L x alpha zeta (n : Int) +
                PdfBergstrom.delta L x alpha zeta (k : Int) := by
            rw [← Finset.sum_Ioc_add_eq_sum_Icc hkN, ← Nat.Icc_succ_left]
          rw [hsum]
          congr 2
          ring

theorem PdfBergstrom.delta_eq_term (L : GoMath F) (x alpha beta : F) (n : Nat) :
    PdfBergstrom.delta L x alpha (beta * L.Tan (0.5 * L.Pi * alpha)) (n : Int) =
      bergstromTerm L x alpha beta n := by
  have hz : (0.5 : F) * L.Pi * alpha = L.Pi * alpha / 2 := by norm_num; ring
  have hn : (0.5 : F) * (n : F) = (n : F) / 2 := by norm_num; ring
  have hsign : (if (n : Int) % 2 = 0 then (-1.0 : F) else 1.0) = (-1) ^ (n + 1) := by
    rcases Nat.even_or_odd n with he | ho
    · have h1 : (n : Int) % 2 = 0 := by
        obtain ⟨r, hr⟩ := he
        omega
      rw [if_pos h1, Odd.neg_one_pow (Even.add_one he)]
      norm_num
    · have h1 : ¬ ((n : Int) % 2 = 0) := by
        obtain ⟨r, hr⟩ := ho
        omega
      rw [if_neg h1, Even.neg_one_pow (Odd.add_one ho)]
      norm_num
  simp only [PdfBergstrom.delta, bergstromTerm, Int.cast_natCast, hz, hn, hsign, sq]

theorem PdfBergstrom.ScaledValue_spec (L : GoMath F) (pdf : PdfBergstrom F)
    (x alpha beta : F) :
    ∃ N : Nat, 1 ≤ N ∧
      (|bergstromTerm L x alpha beta N| < pdf.eps * L.Pi / x ∨ (N : Int) ≥ pdf.limit) ∧
      (∀ m : Nat, 1 ≤ m → m < N →
        ¬ (|bergstromTerm L x alpha beta m| < pdf.eps * L.Pi / x ∨ (m : Int) ≥ pdf.limit)) ∧
      PdfBergstrom.ScaledValue L pdf x alpha beta =
        (1 / (x * L.Pi) * ∑ n ∈ Finset.Icc 1 N, bergstromTerm L x alpha beta n,
          if (N : Int) ≥ pdf.limit then some (Error.iterationLimit pdf.limit) else none) := by
  obtain ⟨N, hN1, hN2, hN3, hN4⟩ :=
    PdfBergstrom.loop_spec L pdf x alpha (beta * L.Tan (0.5 * L.Pi * alpha))
      (pdf.eps / x * L.Pi) (pdf.limit - ((1 : Nat) : Int)).toNat 1 0 (le_refl _)
  have heps : pdf.eps / x * L.Pi = pdf.eps * L.Pi / x := by ring
  simp only [PdfBergstrom.delta_eq_term, heps] at hN2 hN3 hN4
  refine ⟨N, hN1, hN2, hN3, ?_⟩
  unfold PdfBergstrom.ScaledValue
  have h0 : (0.0 : F) = 0 := by norm_num
  have h1 : (1 : Int) = ((1 : Nat) : Int) := rfl
  simp only [h0, heps]
  rw [h1, hN4]
  simp only [zero_add]
  congr 1
  ring

/-- C8: for `x > 0`, `PdfBergstrom.ScaledValue(x, alpha, beta)` returns
`(1/(x*pi))` times the sum of the terms 1 to `N` of the series of the specification,
where `N` is the least `n >= 1` whose term has magnitude below `eps*pi/x` or for which
`n >= limit`; this holds for every `eps` and `limit`, the defaults included. -/
theorem PdfBergstrom_ScaledValue_series (L : GoMath F) (pdf : PdfBergstrom F)
    (x alpha beta : F) (_hx : 0 < x) :
    ∃ N : Nat, 1 ≤ N ∧
      (|bergstromTerm L x alpha beta N| < pdf.eps * L.Pi / x ∨ (N : Int) ≥ pdf.limit) ∧
      (∀ m : Nat, 1 ≤ m → m < N →
        ¬ (|bergstromTerm L x alpha beta m| < pdf.eps * L.Pi / x ∨ (m : Int) ≥ pdf.limit)) ∧
      (PdfBergstrom.ScaledValue L pdf x alpha beta).1 =
        1 / (x * L.Pi) * ∑ n ∈ Finset.Icc 1 N, bergstromTerm L x alpha beta n := by
  obtain ⟨N, hN1, hN2, hN3, hN4⟩ := PdfBergstrom.ScaledValue_spec L pdf x alpha beta
  exact ⟨N, hN1, hN2, hN3, by rw [hN4]⟩

/-- Witness of C8: the default generator over the reals at `x = 1`, `alpha = 1`,
`beta = 0`. -/
theorem PdfBergstrom_ScaledValue_series_witness :
    ∃ N : Nat, 1 ≤ N ∧
      (|bergstromTerm realMath (1:ℝ) 1 0 N| <
          (NewPdfBergstrom : PdfBergstrom ℝ).eps * realMath.Pi / 1 ∨
        (N : Int) ≥ (NewPdfBergstrom : PdfBergstrom ℝ).limit) ∧
      (∀ m : Nat, 1 ≤ m → m < N →
        ¬ (|bergstromTerm realMath (1:ℝ) 1 0 m| <
            (NewPdfBergstrom : PdfBergstrom ℝ).eps * realMath.Pi / 1 ∨
          (m : Int) ≥ (NewPdfBergstrom : PdfBergstrom ℝ).limit)) ∧
      (PdfBergstrom.ScaledValue realMath NewPdfBergstrom (1:ℝ) 1 0).1 =
        1 / (1 * realMath.Pi) * ∑ n ∈ Finset.Icc 1 N, bergstromTerm realMath (1:ℝ) 1 0 n :=
  PdfBergstrom_ScaledValue_series realMath NewPdfBergstrom 1 1 0 one_pos

/-- C9 (the code at the failing input): with `eps = 1e-12` and `limit = 2`, at `x = 1`,
`alpha = 1`, `beta = 0` over the reals, the first term does not meet the convergence
test and the second term, which is the `limit`-th, meets it; `ScaledValue` returns the
partial sum divided by `x*pi` together with the iteration-limit error. -/
theorem PdfBergstrom_error_at_converged_limit :
    ¬ |bergstromTerm realMath (1:ℝ) 1 0 1| < (1e-12 : ℝ) * Real.pi / 1 ∧
      |bergstromTerm realMath (1:ℝ) 1 0 2| < (1e-12 : ℝ) * Real.pi / 1 ∧
      PdfBergstrom.ScaledValue realMath { eps := 1e-12, limit := 2 } (1:ℝ) 1 0 =
        (1 / Real.pi, some (Error.iterationLimit 2)) := by
  have hz : (0:ℝ) * realMath.Tan (0.5 * realMath.Pi * 1) = 0 := by simp
  have ht1 : bergstromTerm realMath (1:ℝ) 1 0 1 = 1 := by
    have h := PdfBergstrom.delta_eq_term realMath (1:ℝ) 1 0 1
    rw [hz] at h
    rw [← h]
    exact delta_cauchy_one
  have ht2 : bergstromTerm realMath (1:ℝ) 1 0 2 = 0 := by
    have h := PdfBergstrom.delta_eq_term realMath (1:ℝ) 1 0 2
    rw [hz] at h
    rw [← h]
    exact delta_cauchy_two
  have hpos : (0:ℝ) < (1e-12 : ℝ) * Real.pi / 1 := by positivity
  have hlt : (1e-12 : ℝ) * Real.pi / 1 < 1 := by
    have h := Real.pi_lt_four
    norm_num
    nlinarith
  have h1 : ¬ |PdfBergstrom.delta realMath (1:ℝ) 1 0 1| < (1e-12 : ℝ) / 1 * realMath.Pi := by
    rw [delta_cauchy_one, abs_one]
    have : (1e-12 : ℝ) / 1 * realMath.Pi = (1e-12 : ℝ) * Real.pi / 1 := by
      simp only [realMath]; ring
    rw [this]
    exact not_lt.mpr (le_of_lt hlt)
  refine ⟨?_, ?_, ?_⟩
  · rw [ht1, abs_one]
    exact not_lt.mpr (le_of_lt hlt)
  · rw [ht2, abs_zero]
    exact hpos
  · unfold PdfBergstrom.ScaledValue
    simp only []
    rw [hz, PdfBergstrom.loop_continue realMath _ _ _ _ _ _ _ (by norm_num) h1,
      PdfBergstrom.loop_limit realMath _ _ _ _ _ _ _ (by norm_num)]
    have : (1 + 1 : ℤ) = 2 := rfl
    rw [this, delta_cauchy_one, delta_cauchy_two]
    simp only [realMath]
    norm_num

/-! ## `PdfZ.integrate` -/

theorem Error.message_joined_left {G : Type} (fmtG : G → String) (err e : Error G) :
    List.IsInfix (err.message fmtG).data ((Error.joined err e).message fmtG).data := by
  refine ⟨[], "; ".data ++ (e.message fmtG).data ++ " ".data, ?_⟩
  simp only [Error.message, String.data_append, List.nil_append, List.append_assoc]

theorem Error.message_joined_right {G : Type} (fmtG : G → String) (err e : Error G) :
    List.IsInfix (e.message fmtG).data ((Error.joined err e).message fmtG).data := by
  refine ⟨(err.message fmtG).data ++ "; ".data, " ".data, ?_⟩
  simp only [Error.message, String.data_append, List.append_assoc]

/-- C10: `PdfZ.integrate` returns the value `I1 + I2`, where `peak` is the root returned
by the bisection of `f` on `[a, b]`, `I1` the integrator's value for `g` on `[a, peak]`
and `I2` its value for `g` on `[peak, b]`, whatever errors were reported.  The returned
error is nil exactly when the bisection and both integrations returned nil, and the
message of every sub-error that occurred is contained in the returned message. -/
theorem PdfZ_integrate_value_and_errors (bisect : Bisection F) (pdf : PdfZ F)
    (f g : F → F) (a b : F) (fmtG : F → String) :
    (PdfZ.integrate bisect pdf f g a b).1 =
        (pdf.quad g a (bisect f a b pdf.eps_bisect pdf.limit_bisect).1
            pdf.eps_quad 0 pdf.limit_quad).1 +
          (pdf.quad g (bisect f a b pdf.eps_bisect pdf.limit_bisect).1 b
            pdf.eps_quad 0 pdf.limit_quad).1 ∧
      ((PdfZ.integrate bisect pdf f g a b).2 = none ↔
        ((bisect f a b pdf.eps_bisect pdf.limit_bisect).2.2 = none ∧
          (pdf.quad g a (bisect f a b pdf.eps_bisect pdf.limit_bisect).1
            pdf.eps_quad 0 pdf.limit_quad).2.2 = none ∧
          (pdf.quad g (bisect f a b pdf.eps_bisect pdf.limit_bisect).1 b
            pdf.eps_quad 0 pdf.limit_quad).2.2 = none)) ∧
      (∀ e : Error F,
        ((bisect f a b pdf.eps_bisect pdf.limit_bisect).2.2 = some e ∨
          (pdf.quad g a (bisect f a b pdf.eps_bisect pdf.limit_bisect).1
            pdf.eps_quad 0 pdf.limit_quad).2.2 = some e ∨
          (pdf.quad g (bisect f a b pdf.eps_bisect pdf.limit_bisect).1 b
            pdf.eps_quad 0 pdf.limit_quad).2.2 = some e) →
        ∃ c : Error F, (PdfZ.integrate bisect pdf f g a b).2 = some c ∧
          List.IsInfix (e.message fmtG).data (c.message fmtG).data) := by
  have h0 : (0.0 : F) = 0 := by norm_num
  unfold PdfZ.integrate
  simp only [h0]
  generalize (bisect f a b pdf.eps_bisect pdf.limit_bisect).2.2 = eb
  generalize (pdf.quad g a (bisect f a b pdf.eps_bisect pdf.limit_bisect).1
    pdf.eps_quad 0 pdf.limit_quad).2.2 = e1
  generalize (pdf.quad g (bisect f a b pdf.eps_bisect pdf.limit_bisect).1 b
    pdf.eps_quad 0 pdf.limit_quad).2.2 = e2
  refine ⟨trivial, ?_, ?_⟩
  · cases eb <;> cases e1 <;> cases e2 <;> simp
  · intro e he
    cases eb with
    | none =>
      cases e1 with
      | none =>
        cases e2 with
        | none => simp at he
        | some c2 =>
          simp only [false_or, Option.some.injEq, reduceCtorEq] at he
          subst he
          exact ⟨c2, rfl, List.infix_refl _⟩
      | some c1 =>
        cases e2 with
        | none =>
          simp only [false_or, or_false, Option.some.injEq, reduceCtorEq] at he
          subst he
          exact ⟨c1, rfl, List.infix_refl _⟩
        | some c2 =>
          simp only [false_or, Option.some.injEq, reduceCtorEq] at he
          refine ⟨Error.joined c1 c2, rfl, ?_⟩
          rcases he with he | he
          · subst he
            exact Error.message_joined_left fmtG _ _
          · subst he
            exact Error.message_joined_right fmtG _ _
    | some cb =>
      cases e1 with
      | none =>
        cases e2 with
        | none =>
          simp only [or_false, false_or, Option.some.injEq, reduceCtorEq] at he
          subst he
          exact ⟨cb, rfl, List.infix_refl _⟩
        | some c2 =>
          simp only [false_or, Option.some.injEq, reduceCtorEq] at he
          refine ⟨Error.joined cb c2, rfl, ?_⟩
          rcases he with he | he
          · subst he
            exact Error.message_joined_left fmtG _ _
          · subst he
            exact Error.message_joined_right fmtG _ _
      | some c1 =>
        cases e2 with
        | none =>
          simp only [or_false, Option.some.injEq, reduceCtorEq] at he
          refine ⟨Error.joined cb c1, rfl, ?_⟩
          rcases he with he | he
          · subst he
            exact Error.message_joined_left fmtG _ _
          · subst he
            exact Error.message_joined_right fmtG _ _
        | some c2 =>
          simp only [Option.some.injEq] at he
          refine ⟨Error.joined (Error.joined cb c1) c2, rfl, ?_⟩
          rcases he with he | he | he
          · subst he
            exact (Error.message_joined_left fmtG _ _).trans
              (Error.message_joined_left fmtG _ _)
          · subst he
            exact (Error.message_joined_right fmtG _ _).trans
              (Error.message_joined_left fmtG _ _)
          · subst he
            exact Error.message_joined_right fmtG _ _

/-! ## The sampler -/

/-- C11: with the state of the random source as an explicit input, for every `mu` and
`sigma`: `GaussSample(mu, sigma) = Sample(2, 0, mu, sigma/sqrt(2))`,
`CauchySample(mu, sigma) = Sample(1, 0, mu, sigma)` and
`LevySample(mu, sigma) = Sample(0.5, 1, mu, sigma)`, value and next state alike. -/
theorem Sample_wrappers {S : Type} (L : GoMath F) (R : Rand F S) (fuel : Nat)
    (mu sigma : F) (st : S) :
    GaussSample L R fuel mu sigma st = Sample L R fuel 2 0 mu (sigma / L.Sqrt 2) st ∧
      CauchySample L R fuel mu sigma st = Sample L R fuel 1 0 mu sigma st ∧
      LevySample L R fuel mu sigma st = Sample L R fuel 0.5 1 mu sigma st := by
  have h0 : (0 : F) = 0.0 := by norm_num
  have h1 : (1.0 : F) = 1 := by norm_num
  have h2 : (2.0 : F) = 2 := by norm_num
  refine ⟨?_, ?_, ?_⟩
  · unfold GaussSample Sample
    rw [if_pos h0, h2]
  · unfold CauchySample Sample
    rw [if_pos h0, h1]
  · unfold LevySample
    rw [h1]

theorem drawNonZero_first {S : Type} (R : Rand F S) (fuel : Nat) (st : S)
    (h : (R.ExpFloat64 st).1 ≠ 0) :
    drawNonZero R (fuel + 1) st = some (R.ExpFloat64 st) := by
  have h0 : (0.0 : F) = 0 := by norm_num
  simp only [drawNonZero, h0, h, if_false]

theorem drawNonZero_skip_zeros {S : Type} (R : Rand F S) (k m : Nat) :
    ∀ st : S, (∀ j : Nat, j < k → (R.ExpFloat64 (afterExpDraws R j st)).1 = 0) →
      (R.ExpFloat64 (afterExpDraws R k st)).1 ≠ 0 →
      drawNonZero R (k + 1 + m) st = some (R.ExpFloat64 (afterExpDraws R k st)) := by
  have h0 : (0.0 : F) = 0 := by norm_num
  induction k with
  | zero =>
    intro st _ hW
    have hf : 0 + 1 + m = m + 1 := by omega
    rw [hf]
    exact drawNonZero_first R m st hW
  | succ k ih =>
    intro st hz hW
    have hf : k + 1 + 1 + m = (k + 1 + m) + 1 := by omega
    have hfirst : (R.ExpFloat64 st).1 = 0 := hz 0 (Nat.succ_pos k)
    rw [hf]
    simp only [drawNonZero, h0, hfirst, if_true]
    exact ih (R.ExpFloat64 st).2 (fun j hj => hz (j + 1) (Nat.succ_lt_succ hj)) hW

theorem drawNonZero_all_zeros {S : Type} (R : Rand F S) (k : Nat) :
    ∀ (fuel : Nat) (st : S), fuel ≤ k →
      (∀ j : Nat, j < k → (R.ExpFloat64 (afterExpDraws R j st)).1 = 0) →
      drawNonZero R fuel st = none := by
  have h0 : (0.0 : F) = 0 := by norm_num
  induction k with
  | zero =>
    intro fuel st hf _
    have : fuel = 0 := by omega
    subst this
    rfl
  | succ k ih =>
    intro fuel st hf hz
    cases fuel with
    | zero => rfl
    | succ fuel =>
      have hfirst : (R.ExpFloat64 st).1 = 0 := hz 0 (Nat.succ_pos k)
      simp only [drawNonZero, h0, hfirst, if_true]
      exact ih fuel (R.ExpFloat64 st).2 (by omega)
        (fun j hj => hz (j + 1) (Nat.succ_lt_succ hj))

theorem Sample_symmetric_of_loop {S : Type} (L : GoMath F) (R : Rand F S) (fuel : Nat)
    (alpha mu sigma W : F) (st st2 : S)
    (hW : drawNonZero R fuel (R.Float64 st).2 = some (W, st2)) :
    (alpha = 2 → Sample L R fuel alpha 0 mu sigma st =
        some (2 * L.Sin (L.Pi * ((R.Float64 st).1 - 1 / 2)) * L.Sqrt W * sigma + mu, st2)) ∧
      (alpha ≠ 1 → alpha ≠ 2 → Sample L R fuel alpha 0 mu sigma st =
        some (sigma * L.Sin (alpha * (L.Pi * ((R.Float64 st).1 - 1 / 2))) /
              L.Pow (L.Cos (L.Pi * ((R.Float64 st).1 - 1 / 2))) (1 / alpha) *
            L.Pow (L.Cos ((1 - alpha) * (L.Pi * ((R.Float64 st).1 - 1 / 2))) / W)
              ((1 - alpha) / alpha) + mu, st2)) := by
  have h0 : (0 : F) = 0.0 := by norm_num
  have h1 : (1.0 : F) = 1 := by norm_num
  have h2 : (2.0 : F) = 2 := by norm_num
  have h5 : (0.5 : F) = 1 / 2 := by norm_num
  refine ⟨?_, ?_⟩
  · intro ha
    have hne : ¬ alpha = 1 := by rw [ha]; norm_num
    unfold Sample symmetric
    simp only [if_pos h0, h1, h2, h5, if_neg hne, hW, if_pos ha]
  · intro hne1 hne2
    unfold Sample symmetric
    simp only [if_pos h0, h1, h2, h5, if_neg hne1, hW, if_neg hne2, symmetricGeneral]
    congr 2
    ring

/-- C12: with `V = pi*(U - 1/2)` for the uniform draw `U`, `Sample(alpha, 0, mu, sigma)`
returns `sigma*tan(V) + mu` when `alpha = 1`, without any exponential draw (the state
is the one after the uniform draw, whatever the bound on draws).  For the other
`alpha`, if the first `k` exponential draws are 0 and the next one is `W` with
`W ≠ 0`, the zeros are drawn again and discarded: the loop has not ended within `k`
draws, and with room for `k + 1` draws or more `Sample` returns
`2*sin(V)*sqrt(W)*sigma + mu` when `alpha = 2` and
`sigma * sin(alpha*V)/cos(V)^(1/alpha) * (cos((1-alpha)*V)/W)^((1-alpha)/alpha) + mu`
for every other `alpha`, in the state that follows the draw of `W`. -/
theorem Sample_symmetric_cases {S : Type} (L : GoMath F) (R : Rand F S)
    (alpha mu sigma : F) (st : S) :
    (alpha = 1 → ∀ fuel : Nat, Sample L R fuel alpha 0 mu sigma st =
        some (sigma * L.Tan (L.Pi * ((R.Float64 st).1 - 1 / 2)) + mu, (R.Float64 st).2)) ∧
      (∀ (k : Nat) (W : F) (st2 : S),
        (∀ j : Nat, j < k →
          (R.ExpFloat64 (afterExpDraws R j (R.Float64 st).2)).1 = 0) →
        R.ExpFloat64 (afterExpDraws R k (R.Float64 st).2) = (W, st2) →
        W ≠ 0 →
        (alpha ≠ 1 → ∀ fuel : Nat, fuel ≤ k → Sample L R fuel alpha 0 mu sigma st = none) ∧
        (alpha = 2 → ∀ m : Nat, Sample L R (k + 1 + m) alpha 0 mu sigma st =
          some (2 * L.Sin (L.Pi * ((R.Float64 st).1 - 1 / 2)) * L.Sqrt W * sigma + mu,
            st2)) ∧
        (alpha ≠ 1 → alpha ≠ 2 → ∀ m : Nat, Sample L R (k + 1 + m) alpha 0 mu sigma st =
          some (sigma * L.Sin (alpha * (L.Pi * ((R.Float64 st).1 - 1 / 2))) /
                L.Pow (L.Cos (L.Pi * ((R.Float64 st).1 - 1 / 2))) (1 / alpha) *
              L.Pow (L.Cos ((1 - alpha) * (L.Pi * ((R.Float64 st).1 - 1 / 2))) / W)
                ((1 - alpha) / alpha) + mu, st2))) := by
  have h0 : (0 : F) = 0.0 := by norm_num
  have h1 : (1.0 : F) = 1 := by norm_num
  have h5 : (0.5 : F) = 1 / 2 := by norm_num
  constructor
  · intro ha fuel
    unfold Sample symmetric
    simp only [if_pos h0, h1, h5, if_pos ha]
  · intro k W st2 hz hdraw hW
    have hW1 : (R.ExpFloat64 (afterExpDraws R k (R.Float64 st).2)).1 ≠ 0 := by
      rw [hdraw]
      exact hW
    have hloop : ∀ m : Nat, drawNonZero R (k + 1 + m) (R.Float64 st).2 = some (W, st2) := by
      intro m
      rw [drawNonZero_skip_zeros R k m (R.Float64 st).2 hz hW1, hdraw]
    refine ⟨?_, ?_, ?_⟩
    · intro hne fuel hfuel
      have hnone := drawNonZero_all_zeros R k fuel (R.Float64 st).2 hfuel hz
      unfold Sample symmetric
      simp only [if_pos h0, h1, if_neg hne, hnone]
    · intro ha m
      exact (Sample_symmetric_of_loop L R (k + 1 + m) alpha mu sigma W st st2 (hloop m)).1 ha
    · intro hne1 hne2 m
      exact (Sample_symmetric_of_loop L R (k + 1 + m) alpha mu sigma W st st2 (hloop m)).2
        hne1 hne2

/-- Witness of C12: uniform draw `3/4` (so `V = pi/4`), exponential draws 0 then 4,
`alpha = 2`, `mu = 3`, `sigma = 5`: the zero is discarded and the value is
`2*sin(pi/4)*sqrt(4)*5 + 3`, in the state after three draws. -/
theorem Sample_symmetric_cases_witness :
    Sample realMath (zeroThenDraws (3 / 4) 4) (1 + 1 + 0) 2 0 3 5 0 =
      some (2 * realMath.Sin
          (realMath.Pi * (((zeroThenDraws (3 / 4 : ℝ) 4).Float64 0).1 - 1 / 2)) *
        realMath.Sqrt 4 * 5 + 3, 3) :=
  ((Sample_symmetric_cases realMath (zeroThenDraws (3 / 4) 4) 2 3 5 0).2 1 4 3
    (by
      intro j hj
      have hj0 : j = 0 := by omega
      subst hj0
      simp [afterExpDraws, zeroThenDraws])
    (by simp [afterExpDraws, zeroThenDraws])
    (by norm_num)).2.1 rfl 0

/-! ## Bounds on the Bergstrom loop -/

/-- C14: the loop of `PdfBergstrom.ScaledValue` ends for every `x`, `alpha`, `beta`
(through `zeta`), every threshold and every `limit`: started at `n = 1` with sum 0 it
leaves with the counter `N + 1` after summing the terms `1..N`, where
`1 <= N <= max(1, limit)`; this covers a convergence test that never succeeds and
`limit <= 0`. -/
theorem PdfBergstrom_loop_terminates (L : GoMath F) (pdf : PdfBergstrom F)
    (x alpha zeta eps : F) :
    ∃ N : Nat, 1 ≤ N ∧ (N : Int) ≤ max 1 pdf.limit ∧
      (PdfBergstrom.loop L pdf x alpha zeta eps 1 0.0).1 = (N : Int) + 1 ∧
      (PdfBergstrom.loop L pdf x alpha zeta eps 1 0.0).2.1 =
        ∑ n ∈ Finset.Icc 1 N, PdfBergstrom.delta L x alpha zeta (n : Int) := by
  obtain ⟨N, hN1, _, hN3, hN4⟩ :=
    PdfBergstrom.loop_spec L pdf x alpha zeta eps (pdf.limit - ((1 : Nat) : Int)).toNat 1 0
      (le_refl _)
  have h0 : (0.0 : F) = 0 := by norm_num
  rw [Nat.cast_one] at hN4
  refine ⟨N, hN1, ?_, ?_, ?_⟩
  · by_contra hc
    have hm := hN3 (max 1 pdf.limit).toNat (by omega) (by omega)
    apply hm
    right
    omega
  · rw [h0, hN4]
  · rw [h0, hN4]
    simp only [zero_add]

/-- C19: for `x < 0`, `eps > 0` and `limit >= 1` (with `pi > 0`) the threshold
`eps*pi/x` is negative, no term meets the convergence test, and `ScaledValue` sums
exactly `limit` terms and returns the iteration-limit error. -/
theorem PdfBergstrom_negative_x (L : GoMath F) (pdf : PdfBergstrom F) (x alpha beta : F)
    (hPi : 0 < L.Pi) (hx : x < 0) (heps : 0 < pdf.eps) (hlimit : 1 ≤ pdf.limit) :
    pdf.eps * L.Pi / x < 0 ∧
      (∀ n : Nat, ¬ |bergstromTerm L x alpha beta n| < pdf.eps * L.Pi / x) ∧
      (PdfBergstrom.loop L pdf x alpha (beta * L.Tan (0.5 * L.Pi * alpha))
        (pdf.eps / x * L.Pi) 1 0.0).1 = pdf.limit + 1 ∧
      PdfBergstrom.ScaledValue L pdf x alpha beta =
        (1 / (x * L.Pi) * ∑ n ∈ Finset.Icc 1 pdf.limit.toNat, bergstromTerm L x alpha beta n,
          some (Error.iterationLimit pdf.limit)) := by
  have hneg : pdf.eps * L.Pi / x < 0 := div_neg_of_pos_of_neg (mul_pos heps hPi) hx
  have hnever : ∀ n : Nat, ¬ |bergstromTerm L x alpha beta n| < pdf.eps * L.Pi / x := by
    intro n h
    have := abs_nonneg (bergstromTerm L x alpha beta n)
    linarith
  have heq : pdf.eps / x * L.Pi = pdf.eps * L.Pi / x := by ring
  have h0 : (0.0 : F) = 0 := by norm_num
  obtain ⟨N, hN1, hN2, hN3, hN4⟩ :=
    PdfBergstrom.loop_spec L pdf x alpha (beta * L.Tan (0.5 * L.Pi * alpha))
      (pdf.eps / x * L.Pi) (pdf.limit - ((1 : Nat) : Int)).toNat 1 0 (le_refl _)
  simp only [PdfBergstrom.delta_eq_term, heq, Nat.cast_one] at hN2 hN3 hN4
  have hge : (N : Int) ≥ pdf.limit := by
    rcases hN2 with h | h
    · exact absurd h (hnever N)
    · exact h
  have hle : (N : Int) ≤ pdf.limit := by
    by_contra hc
    exact hN3 pdf.limit.toNat (by omega) (by omega) (Or.inr (by omega))
  have hN : N = pdf.limit.toNat := by omega
  refine ⟨hneg, hnever, ?_, ?_⟩
  · rw [h0, heq, hN4]
    simp only []
    omega
  · unfold PdfBergstrom.ScaledValue
    simp only [h0, heq]
    rw [hN4, if_pos hge, ← hN]
    simp only [zero_add]
    congr 1
    ring

/-- Witness of C19: the default generator over the reals at `x = -1`, `alpha = 1/2`,
`beta = 1/4`. -/
theorem PdfBergstrom_negative_x_witness :
    PdfBergstrom.ScaledValue realMath NewPdfBergstrom (-1) (1 / 2) (1 / 4) =
      (1 / ((-1 : ℝ) * realMath.Pi) *
          ∑ n ∈ Finset.Icc 1 (NewPdfBergstrom : PdfBergstrom ℝ).limit.toNat,
            bergstromTerm realMath (-1) (1 / 2) (1 / 4) n,
        some (Error.iterationLimit (NewPdfBergstrom : PdfBergstrom ℝ).limit)) :=
  (PdfBergstrom_negative_x realMath NewPdfBergstrom (-1) (1 / 2) (1 / 4) Real.pi_pos
    (by norm_num) (by simp only [NewPdfBergstrom]; norm_num)
    (by simp only [NewPdfBergstrom]; norm_num)).2.2.2

/-! ## Selection of the regimes -/

theorem PdfZ.ScaledValue_of_cauchy (L : GoMath F) (bisect : Bisection F) (pdf : PdfZ F)
    (x alpha beta : F) (h2 : closeTo alpha 2 pdf.alpha_tol = false)
    (h1 : closeTo alpha 1 pdf.alpha_tol = true) (hb : closeTo beta 0 pdf.beta_tol = true) :
    PdfZ.ScaledValue L bisect pdf x alpha beta = (1.0 / ((1.0 + x * x) * L.Pi), none) := by
  rw [PdfZ.ScaledValue]
  simp only [h2, h1, hb, Bool.false_eq_true, if_false, Bool.not_true, Bool.and_false,
    Bool.and_true, if_true]

theorem PdfZ.ScaledValue_of_eq1 (L : GoMath F) (bisect : Bisection F) (pdf : PdfZ F)
    (x alpha beta : F) (h2 : closeTo alpha 2 pdf.alpha_tol = false)
    (h1 : closeTo alpha 1 pdf.alpha_tol = true) (hb : closeTo beta 0 pdf.beta_tol = false) :
    PdfZ.ScaledValue L bisect pdf x alpha beta = PdfZ.eq1Integral L bisect pdf x beta := by
  rw [PdfZ.ScaledValue]
  simp only [h2, h1, hb, Bool.false_eq_true, if_false, Bool.not_false, Bool.and_true, if_true]
  rfl

theorem closeTo_zero_tol (val1 val2 : F) : closeTo val1 val2 0 = false := by
  rw [closeTo_eq_false_iff, abs_zero]
  exact not_lt.mpr (abs_nonneg _)

/-- C15: for any tolerances, integrator and root finder: if `|alpha - 2| < |alpha_tol|`
then `ScaledValue(x, alpha, beta) = exp(-x^2/4)/sqrt(4*pi)` with nil error for every `x`
and `beta`; otherwise, if `|alpha - 1| < |alpha_tol|` and `|beta| < |beta_tol|`, then
`ScaledValue(x, alpha, beta) = 1/(pi*(1+x^2))` with nil error.  The results mention
neither the integrator nor the root finder.  The comparison is strict: `closeTo` is
false for every pair of values when the tolerance is 0. -/
theorem PdfZ_closed_form_regimes (L : GoMath F) (bisect : Bisection F) (pdf : PdfZ F)
    (x alpha beta : F) :
    (|alpha - 2| < |pdf.alpha_tol| →
        PdfZ.ScaledValue L bisect pdf x alpha beta =
          (L.Exp (-(x ^ 2) / 4) / L.Sqrt (4 * L.Pi), none)) ∧
      (¬ |alpha - 2| < |pdf.alpha_tol| → |alpha - 1| < |pdf.alpha_tol| →
        |beta| < |pdf.beta_tol| →
        PdfZ.ScaledValue L bisect pdf x alpha beta = (1 / (L.Pi * (1 + x ^ 2)), none)) ∧
      (∀ val1 val2 : F, closeTo val1 val2 0 = false) := by
  refine ⟨?_, ?_, closeTo_zero_tol⟩
  · intro h2
    have h : -0.25 * x * x = -(x ^ 2) / 4 := by norm_num; ring
    have h4 : (4.0 : F) = 4 := by norm_num
    rw [PdfZ.ScaledValue_of_gauss L bisect pdf x alpha beta
      ((closeTo_eq_true_iff alpha 2 pdf.alpha_tol).mpr h2), h, h4]
  · intro h2 h1 hb
    have h : (1.0 : F) / ((1.0 + x * x) * L.Pi) = 1 / (L.Pi * (1 + x ^ 2)) := by
      norm_num; ring
    have hb2 : |beta - 0| < |pdf.beta_tol| := by rw [sub_zero]; exact hb
    rw [PdfZ.ScaledValue_of_cauchy L bisect pdf x alpha beta
      ((closeTo_eq_false_iff alpha 2 pdf.alpha_tol).mpr h2)
      ((closeTo_eq_true_iff alpha 1 pdf.alpha_tol).mpr h1)
      ((closeTo_eq_true_iff beta 0 pdf.beta_tol).mpr hb2), h]

/-- Witness of C15: the default tolerances over the reals, at `alpha = 2 + 1e-7` for the
Gaussian regime and at `alpha = 1`, `beta = 1e-7` for the Cauchy regime. -/
theorem PdfZ_closed_form_regimes_witness :
    PdfZ.ScaledValue realMath midpointRoot (NewPdfZ midpointRule) 3 (2 + 1e-7) (1 / 2) =
        (realMath.Exp (-((3:ℝ) ^ 2) / 4) / realMath.Sqrt (4 * realMath.Pi), none) ∧
      PdfZ.ScaledValue realMath midpointRoot (NewPdfZ midpointRule) 3 1 1e-7 =
        (1 / (realMath.Pi * (1 + (3:ℝ) ^ 2)), none) :=
  ⟨(PdfZ_closed_form_regimes realMath midpointRoot (NewPdfZ midpointRule) 3 (2 + 1e-7)
      (1 / 2)).1
      (by
        simp only [NewPdfZ]
        rw [abs_of_pos (by norm_num), abs_of_pos (by norm_num)]
        norm_num),
    (PdfZ_closed_form_regimes realMath midpointRoot (NewPdfZ midpointRule) 3 1 1e-7).2.1
      (by
        simp only [NewPdfZ]
        rw [abs_of_neg (by norm_num), abs_of_pos (by norm_num)]
        norm_num)
      (by
        simp only [NewPdfZ]
        rw [sub_self, abs_zero, abs_of_pos (by norm_num)]
        norm_num)
      (by
        simp only [NewPdfZ]
        rw [abs_of_pos (by norm_num), abs_of_pos (by norm_num)]
        norm_num)⟩

/-- C17: the trailing `return 0, nil` is never reached.  `PdfZ.ScaledValue` returns the
pair of exactly one regime, selected by guards that exclude one another and cover every
input: Gaussian, integral for `alpha` near 1, Cauchy, `x = zeta`, `x > zeta`, or
`x < zeta` (where it returns the pair of the integral branch at the reflected point);
`PdfBelov.ScaledValue` returns the pair of one of its three branches. -/
theorem ScaledValue_no_fall_through (L : GoMath F) (bisect : Bisection F) (pdf : PdfZ F)
    (Q : FixedRules F) (x alpha beta : F) :
    ((closeTo alpha 2 pdf.alpha_tol = true ∧
          PdfZ.ScaledValue L bisect pdf x alpha beta =
            (L.Exp (-0.25 * x * x) / L.Sqrt (4.0 * L.Pi), none)) ∨
        (closeTo alpha 2 pdf.alpha_tol = false ∧ closeTo alpha 1 pdf.alpha_tol = true ∧
          closeTo beta 0 pdf.beta_tol = false ∧
          PdfZ.ScaledValue L bisect pdf x alpha beta =
            PdfZ.eq1Integral L bisect pdf x beta) ∨
        (closeTo alpha 2 pdf.alpha_tol = false ∧ closeTo alpha 1 pdf.alpha_tol = true ∧
          closeTo beta 0 pdf.beta_tol = true ∧
          PdfZ.ScaledValue L bisect pdf x alpha beta =
            (1.0 / ((1.0 + x * x) * L.Pi), none)) ∨
        (closeTo alpha 2 pdf.alpha_tol = false ∧ closeTo alpha 1 pdf.alpha_tol = false ∧
          x = -beta * L.Tan (0.5 * L.Pi * alpha) ∧
          PdfZ.ScaledValue L bisect pdf x alpha beta = PdfZ.atZeta L alpha beta) ∨
        (closeTo alpha 2 pdf.alpha_tol = false ∧ closeTo alpha 1 pdf.alpha_tol = false ∧
          x > -beta * L.Tan (0.5 * L.Pi * alpha) ∧
          PdfZ.ScaledValue L bisect pdf x alpha beta =
            PdfZ.aboveZeta L bisect pdf x alpha beta) ∨
        (closeTo alpha 2 pdf.alpha_tol = false ∧ closeTo alpha 1 pdf.alpha_tol = false ∧
          x < -beta * L.Tan (0.5 * L.Pi * alpha) ∧
          PdfZ.ScaledValue L bisect pdf x alpha beta =
            PdfZ.aboveZeta L bisect pdf (-x) alpha (-beta))) ∧
      ((alpha = 2 ∧ PdfBelov.ScaledValue L Q x alpha beta =
            (L.Exp (-0.25 * x * x) / L.Sqrt (4.0 * L.Pi), none)) ∨
        (alpha ≠ 2 ∧ (alpha = 1 ∧ beta = 0) ∧ PdfBelov.ScaledValue L Q x alpha beta =
            (1.0 / ((1.0 + x * x) * L.Pi), none)) ∨
        (alpha ≠ 2 ∧ ¬ (alpha = 1 ∧ beta = 0) ∧ PdfBelov.ScaledValue L Q x alpha beta =
            PdfBelov.twoPieces L Q x alpha beta)) := by
  constructor
  · cases h2 : closeTo alpha 2 pdf.alpha_tol with
    | true => exact Or.inl ⟨rfl, PdfZ.ScaledValue_of_gauss L bisect pdf x alpha beta h2⟩
    | false =>
      right
      cases h1 : closeTo alpha 1 pdf.alpha_tol with
      | true =>
        cases hb : closeTo beta 0 pdf.beta_tol with
        | false =>
          exact Or.inl ⟨rfl, rfl, rfl, PdfZ.ScaledValue_of_eq1 L bisect pdf x alpha beta h2 h1 hb⟩
        | true =>
          exact Or.inr (Or.inl
            ⟨rfl, rfl, rfl, PdfZ.ScaledValue_of_cauchy L bisect pdf x alpha beta h2 h1 hb⟩)
      | false =>
        right; right
        rcases lt_trichotomy x (-beta * L.Tan (0.5 * L.Pi * alpha)) with hx | hx | hx
        · right; right
          have hx2 : -x > - -beta * L.Tan (0.5 * L.Pi * alpha) := by
            rw [zeta_reflect]
            exact neg_lt_neg hx
          refine ⟨rfl, rfl, hx, ?_⟩
          rw [PdfZ.ScaledValue_below_zeta L bisect pdf x alpha beta h2 h1 hx,
            PdfZ.ScaledValue_above_zeta L bisect pdf (-x) alpha (-beta) h2 h1 hx2]
        · exact Or.inl ⟨rfl, rfl, hx, PdfZ.ScaledValue_at_zeta L bisect pdf x alpha beta h2 h1 hx⟩
        · exact Or.inr (Or.inl
            ⟨rfl, rfl, hx, PdfZ.ScaledValue_above_zeta L bisect pdf x alpha beta h2 h1 hx⟩)
  · by_cases ha : alpha = 2
    · left
      refine ⟨ha, ?_⟩
      unfold PdfBelov.ScaledValue
      rw [if_pos ha]
    · right
      by_cases hb : alpha = 1 ∧ beta = 0
      · left
        refine ⟨ha, hb, ?_⟩
        unfold PdfBelov.ScaledValue
        rw [if_neg ha, if_pos hb]
      · right
        refine ⟨ha, hb, ?_⟩
        unfold PdfBelov.ScaledValue
        rw [if_neg ha, if_neg hb]
        rfl

/-! ## The integrands in the log domain -/

theorem realMath_exp_log_sub (c t : ℝ) (hc : 0 < c) :
    Real.exp (Real.log c - t) = c * Real.exp (-t) := by
  rw [sub_eq_add_neg, Real.exp_add, Real.exp_log hc]

/-- C16: for an interpretation of `math` over the reals whose `Exp` and `Log` are the
real exponential and logarithm, whenever `gamma` is not a NaN and the component value
`c` is not `+Inf` and is strictly positive, `integrandNeq1` and `integrandEq1` return
`c*exp(-c*gamma)`: the log-domain form `exp(log(c) - c*gamma)` is the direct form. -/
theorem integrand_log_domain (L : GoMath ℝ) (hExp : L.Exp = Real.exp)
    (hLog : L.Log = Real.log) (theta alpha beta eps gamma : ℝ)
    (hnan : L.IsNaN gamma = false) :
    (L.IsInf (componentNeq1 L theta alpha beta eps) 1 = false →
        0 < componentNeq1 L theta alpha beta eps →
        integrandNeq1 L theta alpha beta eps gamma =
          componentNeq1 L theta alpha beta eps *
            Real.exp (-(componentNeq1 L theta alpha beta eps * gamma))) ∧
      (L.IsInf (componentEq1 L theta beta) 1 = false →
        0 < componentEq1 L theta beta →
        integrandEq1 L theta beta gamma =
          componentEq1 L theta beta * Real.exp (-(componentEq1 L theta beta * gamma))) := by
  constructor
  · intro hinf hpos
    unfold integrandNeq1
    simp only [hnan, hinf, Bool.or_self, Bool.false_eq_true, if_false, hExp, hLog]
    exact realMath_exp_log_sub _ _ hpos
  · intro hinf hpos
    unfold integrandEq1
    simp only [hnan, hinf, Bool.or_self, Bool.false_eq_true, if_false, hExp, hLog]
    exact realMath_exp_log_sub _ _ hpos

theorem componentEq1_at_zero : componentEq1 realMath 0 1 = 1 := by
  norm_num [componentEq1, realMath]

theorem componentNeq1_at_quarter : 0 < componentNeq1 realMath (Real.pi / 4) 2 0 0 := by
  have hc : 0 < Real.cos (Real.pi / 4) := by
    rw [Real.cos_pi_div_four]
    positivity
  have h1 : (2:ℝ) * (Real.pi / 4 + 0) = Real.pi / 2 := by ring
  have h2 : (0:ℝ) + (2 - 1.0) * (Real.pi / 4) = Real.pi / 4 := by norm_num
  have h3 : (2:ℝ) * 0 = 0 := by ring
  simp only [componentNeq1, realMath, h1, h2, h3, Real.sin_pi_div_two, Real.cos_zero,
    Real.one_rpow, one_mul, div_one]
  exact div_pos (mul_pos (Real.rpow_pos_of_pos hc _) hc) hc

/-- Witness of C16: `theta = pi/4`, `alpha = 2`, `eps = 0` for `integrandNeq1` and
`theta = 0`, `beta = 1` for `integrandEq1`, with `gamma = 1`. -/
theorem integrand_log_domain_witness :
    integrandNeq1 realMath (Real.pi / 4) 2 0 0 1 =
        componentNeq1 realMath (Real.pi / 4) 2 0 0 *
          Real.exp (-(componentNeq1 realMath (Real.pi / 4) 2 0 0 * 1)) ∧
      integrandEq1 realMath 0 1 1 =
        componentEq1 realMath 0 1 * Real.exp (-(componentEq1 realMath 0 1 * 1)) :=
  ⟨(integrand_log_domain realMath rfl rfl (Real.pi / 4) 2 0 0 1 rfl).1 rfl
      componentNeq1_at_quarter,
    (integrand_log_domain realMath rfl rfl 0 2 1 0 1 rfl).2 rfl
      (by rw [componentEq1_at_zero]; exact one_pos)⟩

/-! ## The special cases of `symmetric` -/

/-- C18: over the reals, for `u` in `(-pi/2, pi/2)`, `v > 0` and every `mu`, `sigma`, the
general expression of `symmetric` evaluated at `alpha = 1` is `sigma*tan(u) + mu`, and
evaluated at `alpha = 2` it is `2*sin(u)*sqrt(v)*sigma + mu`. -/
theorem symmetricGeneral_special_cases (mu sigma u v : ℝ)
    (hu1 : -(Real.pi / 2) < u) (hu2 : u < Real.pi / 2) (hv : 0 < v) :
    symmetricGeneral realMath 1 mu sigma u v = sigma * Real.tan u + mu ∧
      symmetricGeneral realMath 2 mu sigma u v =
        2 * Real.sin u * Real.sqrt v * sigma + mu := by
  have hcos : 0 < Real.cos u := Real.cos_pos_of_mem_Ioo ⟨hu1, hu2⟩
  constructor
  · have h1 : ((1.0 : ℝ) - 1) = 0 := by norm_num
    have h2 : ((1.0 : ℝ) / 1) = 1 := by norm_num
    simp only [symmetricGeneral, realMath, h1, h2, zero_mul, zero_div, Real.rpow_zero,
      Real.rpow_one, one_mul, mul_one, Real.tan_eq_sin_div_cos]
  · have h1 : ((1.0 : ℝ) - 2) * u = -u := by norm_num
    have h2 : ((1.0 : ℝ) / 2) = 1 / 2 := by norm_num
    have h3 : ((1.0 : ℝ) - 2) / 2 = -(1 / 2) := by norm_num
    have hs : 0 < Real.sqrt (Real.cos u) := Real.sqrt_pos.mpr hcos
    have hsv : 0 < Real.sqrt v := Real.sqrt_pos.mpr hv
    have hsq : Real.sqrt (Real.cos u) * Real.sqrt (Real.cos u) = Real.cos u :=
      Real.mul_self_sqrt (le_of_lt hcos)
    simp only [symmetricGeneral, realMath, h1, h2, h3, Real.cos_neg, Real.sin_two_mul]
    rw [Real.rpow_neg (le_of_lt (div_pos hcos hv)), ← Real.sqrt_eq_rpow, ← Real.sqrt_eq_rpow,
      Real.sqrt_div (le_of_lt hcos)]
    field_simp
    nlinarith [hsq]

/-- Witness of C18: `u = 0`, `v = 1`, `mu = 3`, `sigma = 5`. -/
theorem symmetricGeneral_special_cases_witness :
    symmetricGeneral realMath 1 3 5 0 1 = 5 * Real.tan 0 + 3 ∧
      symmetricGeneral realMath 2 3 5 0 1 = 2 * Real.sin 0 * Real.sqrt 1 * 5 + 3 :=
  symmetricGeneral_special_cases 3 5 0 1 (by linarith [Real.pi_pos])
    (by linarith [Real.pi_pos]) one_pos

/-! ## Reflection of the Belov representation -/

theorem componentBelov_reflect (L : GoMath F) (hCos : ∀ z, L.Cos (-z) = L.Cos z)
    (x t alpha beta : F) :
    componentBelov L (-x) t alpha (-beta) = componentBelov L x t alpha beta := by
  have h : -x * t + -beta * (t - L.Pow t alpha) * L.Tan (0.5 * L.Pi * alpha) =
      -(x * t + beta * (t - L.Pow t alpha) * L.Tan (0.5 * L.Pi * alpha)) := by ring
  simp only [componentBelov, h, hCos]

/-- C20: over the reals, `componentBelov(-x, t, alpha, -beta) = componentBelov(x, t,
alpha, beta)` for every `x`, `t`, `alpha`, `beta`, and for all fixed rules of
integration `PdfBelov.ScaledValue(-x, alpha, -beta) = PdfBelov.ScaledValue(x, alpha,
beta)`. -/
theorem PdfBelov_reflection (Q : FixedRules ℝ) (x t alpha beta : ℝ) :
    componentBelov realMath (-x) t alpha (-beta) = componentBelov realMath x t alpha beta ∧
      PdfBelov.ScaledValue realMath Q (-x) alpha (-beta) =
        PdfBelov.ScaledValue realMath Q x alpha beta := by
  refine ⟨componentBelov_reflect realMath realMath_Cos_neg x t alpha beta, ?_⟩
  have hx : -0.25 * -x * -x = -0.25 * x * x := by ring
  have hx2 : -x * -x = x * x := by ring
  have hf : ∀ s : ℝ, componentBelov realMath (-x) s alpha (-beta) =
      componentBelov realMath x s alpha beta :=
    fun s => componentBelov_reflect realMath realMath_Cos_neg x s alpha beta
  unfold PdfBelov.ScaledValue
  simp only [hx, hx2, hf, neg_eq_zero]

/-! ## Moments of the Gaussian case of the sampler -/

theorem sampleAt_gauss (mu sigma V W : ℝ) (hW : W ≠ 0) :
    sampleAt 2 0 mu sigma V W = 2 * Real.sin V * Real.sqrt W * sigma + mu := by
  have h0 : (0 : ℝ) = 0.0 := by norm_num
  have h00 : (0.0 : ℝ) = 0 := by norm_num
  have h1 : ¬ ((2 : ℝ) = 1.0) := by norm_num
  have h2 : (2 : ℝ) = 2.0 := by norm_num
  have hV : Real.pi * (V / Real.pi + 1 / 2 - 0.5) = V := by
    have hpi : Real.pi ≠ 0 := Real.pi_ne_zero
    norm_num
    field_simp
  simp only [sampleAt, Sample, symmetric, if_pos h0, if_neg h1, drawNonZero, fixedDraws,
    h00, if_neg hW, if_pos h2, realMath, hV]
  norm_num

theorem inner_integral_mean (mu sigma v : ℝ) :
    ∫ w in Set.Ioi (0:ℝ), sampleAt 2 0 mu sigma v w * Real.exp (-w) =
      2 * Real.sin v * sigma * Real.Gamma (3 / 2) + mu := by
  have hcongr : Set.EqOn (fun w : ℝ => sampleAt 2 0 mu sigma v w * Real.exp (-w))
      (fun w : ℝ => (2 * Real.sin v * sigma) * (Real.exp (-w) * w ^ ((3 / 2 : ℝ) - 1)) +
        mu * (Real.exp (-w) * w ^ ((1 : ℝ) - 1))) (Set.Ioi 0) := by
    intro w hw
    have hw0 : (0:ℝ) < w := hw
    have h32 : ((3 / 2 : ℝ) - 1) = 1 / 2 := by norm_num
    simp only [sampleAt_gauss mu sigma v w (ne_of_gt hw0), sub_self, Real.rpow_zero, h32,
      Real.sqrt_eq_rpow]
    ring
  rw [MeasureTheory.setIntegral_congr_fun measurableSet_Ioi hcongr,
    MeasureTheory.integral_add
      ((Real.GammaIntegral_convergent (by norm_num : (0:ℝ) < 3 / 2)).const_mul _)
      ((Real.GammaIntegral_convergent (by norm_num : (0:ℝ) < 1)).const_mul _),
    MeasureTheory.integral_mul_left, MeasureTheory.integral_mul_left,
    ← Real.Gamma_eq_integral (by norm_num : (0:ℝ) < 3 / 2),
    ← Real.Gamma_eq_integral (by norm_num : (0:ℝ) < 1), Real.Gamma_one, mul_one]

theorem inner_integral_variance (mu sigma v : ℝ) :
    ∫ w in Set.Ioi (0:ℝ), (sampleAt 2 0 mu sigma v w - mu) ^ 2 * Real.exp (-w) =
      4 * sigma ^ 2 * Real.sin v ^ 2 := by
  have hcongr : Set.EqOn (fun w : ℝ => (sampleAt 2 0 mu sigma v w - mu) ^ 2 * Real.exp (-w))
      (fun w : ℝ => (4 * sigma ^ 2 * Real.sin v ^ 2) *
        (Real.exp (-w) * w ^ ((2 : ℝ) - 1))) (Set.Ioi 0) := by
    intro w hw
    have hw0 : (0:ℝ) < w := hw
    have h21 : ((2 : ℝ) - 1) = 1 := by norm_num
    have hsq : Real.sqrt w ^ 2 = w := Real.sq_sqrt (le_of_lt hw0)
    simp only [sampleAt_gauss mu sigma v w (ne_of_gt hw0), h21, Real.rpow_one]
    have : (2 * Real.sin v * Real.sqrt w * sigma + mu - mu) ^ 2 =
        4 * sigma ^ 2 * Real.sin v ^ 2 * Real.sqrt w ^ 2 := by ring
    rw [this, hsq]
    ring
  rw [MeasureTheory.setIntegral_congr_fun measurableSet_Ioi hcongr,
    MeasureTheory.integral_mul_left,
    ← Real.Gamma_eq_integral (by norm_num : (0:ℝ) < 2), Real.Gamma_two, mul_one]

/-- C13 (amended): for `V` uniform on `(-pi/2, pi/2)` and `W` exponential with mean 1,
independent, the variate computed by `Sample(2, 0, mu, sigma)` has expectation `mu` and
variance `2*sigma^2`, for every `mu` and `sigma`. -/
theorem Sample_gauss_moments (mu sigma : ℝ) :
    expectation (sampleAt 2 0 mu sigma) = mu ∧
      expectation (fun v w => (sampleAt 2 0 mu sigma v w - mu) ^ 2) = 2 * sigma ^ 2 := by
  have hpi : Real.pi ≠ 0 := Real.pi_ne_zero
  constructor
  · unfold expectation
    simp only [inner_integral_mean]
    rw [intervalIntegral.integral_add (Continuous.intervalIntegrable (by continuity) _ _)
      (Continuous.intervalIntegrable (by continuity) _ _)]
    have h1 : ∫ v in (-(Real.pi / 2))..(Real.pi / 2),
        2 * Real.sin v * sigma * Real.Gamma (3 / 2) = 0 := by
      have : (fun v : ℝ => 2 * Real.sin v * sigma * Real.Gamma (3 / 2)) =
          fun v : ℝ => (2 * sigma * Real.Gamma (3 / 2)) * Real.sin v := by
        funext v; ring
      rw [this, intervalIntegral.integral_const_mul, integral_sin, Real.cos_neg]
      ring
    rw [h1, intervalIntegral.integral_const]
    simp only [smul_eq_mul]
    field_simp
  · unfold expectation
    simp only [inner_integral_variance]
    rw [intervalIntegral.integral_const_mul, integral_sin_sq]
    simp only [Real.sin_neg, Real.cos_neg, Real.sin_pi_div_two, Real.cos_pi_div_two]
    field_simp
    ring

/-- C13 (counterexample): for `mu = 0` and `sigma = 1` the variance of the variate
computed by `Sample(2, 0, mu, sigma)` is 2, not `sigma^2 = 1`. -/
theorem Sample_gauss_variance_counterexample :
    expectation (fun v w => (sampleAt 2 0 0 1 v w - 0) ^ 2) = 2 ∧
      expectation (fun v w => (sampleAt 2 0 0 1 v w - 0) ^ 2) ≠ (1:ℝ) ^ 2 := by
  have hpi : Real.pi ≠ 0 := Real.pi_ne_zero
  have h : expectation (fun v w => (sampleAt 2 0 0 1 v w - 0) ^ 2) = 2 := by
    unfold expectation
    simp only [inner_integral_variance]
    rw [intervalIntegral.integral_const_mul, integral_sin_sq]
    simp only [Real.sin_neg, Real.cos_neg, Real.sin_pi_div_two, Real.cos_pi_div_two]
    field_simp
    ring
  refine ⟨h, ?_⟩
  rw [h]
  norm_num

end Levy
